import Mathlib

/-!
Verification of the text split/merge core of `aic_nlp_utils`
(`src/aic_nlp_utils/split_merge.py`).

Texts are modelled as `List Char` (Python `str` is a sequence of Unicode
scalars).  Python slices `text[a:b]` become `pySlice`, and the functions keep
the source's names.  Errors raised by the Python code (`ValueError`,
`TypeError` from a call with a missing argument, `assert` failures) are
modelled with `Except PyErr`.
-/

set_option maxRecDepth 10000

abbrev Text := List Char

/-- Python errors that the code under study can raise. -/
inductive PyErr where
  | valueError
  | typeError
  | assertionError
deriving DecidableEq, Repr

/-- Python pySlice `t[a:b]` (for `0 ≤ a`, `0 ≤ b`; out-of-range indices clamp). -/
def pySlice (t : Text) (a b : Nat) : Text := (t.drop a).take (b - a)

/-- First character of a text, with an arbitrary default for the empty text
(Python code only inspects heads of nonempty strings). -/
def headChar : Text → Char
  | [] => 'x'
  | c :: _ => c

/-- Character at index `i`, with an arbitrary out-of-range default (all uses
are in range). -/
def charAt (t : Text) (i : Nat) : Char := headChar (t.drop i)

/-- Python `str.isspace` / regex `\s`, restricted to the common whitespace
characters (sufficient for every character class the claims exercise). -/
def pyIsSpace (c : Char) : Bool :=
  c = ' ' || c = '\t' || c = '\n' || c = '\r' || c = '\x0b' || c = '\x0c'

-- Basic facts about `pySlice`.

/-!
## `split_paragraphs`

The source splits with `re.split(r'(\n+)', text)`, which produces the maximal
runs of newline / non-newline characters in order (empty segments are skipped
by the merge loop), then merges each text run with the newline run that
terminates it.  `charRuns` computes exactly those maximal runs and
`mergeParas` is the merge loop.
-/
/-- Maximal runs of characters with equal "is a newline" classification,
in order; the runs concatenate back to the input.  This is the sequence of
nonempty parts of Python `re.split(r'(\n+)', text)`. -/
def charRuns : Text → List Text
  | [] => []
  | c :: cs =>
    match charRuns cs with
    | [] => [[c]]
    | [] :: gs => [c] :: [] :: gs
    | (d :: ds) :: gs =>
      if (c = '\n') = (d = '\n') then (c :: d :: ds) :: gs
      else [c] :: (d :: ds) :: gs

/-- The merge loop of `split_paragraphs`: `buf` accumulates parts; a part
beginning with a newline closes the current paragraph. -/
def mergeParas : List Text → Text → List Text
  | [], buf => if buf.isEmpty then [] else [buf]
  | p :: ps, buf =>
    if headChar p = '\n' then (buf ++ p) :: mergeParas ps []
    else mergeParas ps (buf ++ p)

/-- `split_paragraphs` from the source: split keeping newline-run delimiters,
then merge each block with the newline run that ends it. -/
def split_paragraphs (text : Text) : List Text :=
  mergeParas (charRuns text) []

/-!
## `split_chars`

`split_chars(text, maxLength)` returns `[]` for empty text *before* checking
the bound, raises `ValueError` when `maxLength <= 0`, and otherwise windows
the text into pieces of `maxLength` characters.
-/
/-- Windows of `k` characters (`range(0, len(text), maxLength)` slicing in the
source).  `fuel` bounds the recursion; with `k ≥ 1` and `fuel ≥ length` it is
never exhausted. -/
def chunksOfGo (k : Nat) : Nat → Text → List Text
  | _, [] => []
  | 0, _ :: _ => []
  | fuel + 1, c :: cs => ((c :: cs).take k) :: chunksOfGo k fuel ((c :: cs).drop k)

/-- `split_chars` from the source: empty text short-circuits to `[]`,
then a non-positive bound raises `ValueError`. -/
def split_chars (text : Text) (maxLength : Int) : Except PyErr (List Text) :=
  if text = [] then .ok []
  else if maxLength ≤ 0 then .error .valueError
  else .ok (chunksOfGo maxLength.toNat text.length text)

/-!
## `merge_chunks_greedy`

Forward greedy packing of adjacent chunk lengths into segments of summed
length at most `maxLength`; an oversize single chunk forms its own singleton
segment.
-/
/-- The inner `while` loop: how many further items are absorbed into the
current segment whose running sum is `s`. -/
def absorbCount (m : Int) (s : Int) : List Int → Nat
  | [] => 0
  | y :: ys => if s + y ≤ m then 1 + absorbCount m (s + y) ys else 0

/-- The outer loop of `merge_chunks_greedy` over the remaining lengths `xs`,
where `i` is the absolute index of the head of `xs`.  `fuel` bounds the
recursion (`fuel ≥ xs.length` suffices). -/
def mcgGo (m : Int) : Nat → List Int → Nat → List (List Nat)
  | _, [], _ => []
  | 0, _ :: _, _ => []
  | fuel + 1, x :: xs, i =>
    if x > m then [i] :: mcgGo m fuel xs (i + 1)
    else
      let k := absorbCount m x xs
      List.range' i (k + 1) :: mcgGo m fuel (xs.drop k) (i + k + 1)

/-- `merge_chunks_greedy` from the source. -/
def merge_chunks_greedy (lengths : List Int) (maxLength : Int) : List (List Nat) :=
  mcgGo maxLength lengths.length lengths 0

/-!
## `split_sentences`

The source scans with the regex `[.!?]+(?=(\s|$|[\]\)])|\[\[)` via
`finditer`.  Because a lookahead position strictly inside a run of `.!?`
always fails (those characters are neither whitespace, closers, end of text
nor `[[`), a match is exactly a maximal punctuation run whose following
position satisfies the lookahead, and the scan resumes after the matched run;
`sentGo` implements precisely this scan.  A matched end is then discarded
when the characters immediately preceding the final punctuation character
equal an entry of the fixed `ABBREVIATIONS` table (`text[max(0,end-len-1):
end-1] == abbr` in the source, which `pySlice` reproduces including the
clamping).  Accepted ends are turned into fragments, moving one leading
whitespace character of every fragment but the first onto the previous
fragment (`assembleFrags`).
-/
def isPunct (c : Char) : Bool := c = '.' || c = '!' || c = '?'

def isCloser (c : Char) : Bool := c = ']' || c = ')'

/-- The regex lookahead `(?=(\s|$|[\]\)])|\[\[)` applied to the text after a
punctuation run. -/
def lookahead : Text → Bool
  | [] => true
  | c :: rest => pyIsSpace c || isCloser c || (c = '[' && headChar rest = '[')

/-- Scan of `finditer` over the suffix `cs` of the text starting at absolute
position `pos`; `skip` counts positions still covered by the previous match.
At a punctuation character with `skip = 0`, the whole maximal punctuation run
matches exactly when the lookahead holds after it. -/
def sentGo : Text → Nat → Nat → List Nat
  | [], _, _ => []
  | _ :: cs, pos, skip + 1 => sentGo cs (pos + 1) skip
  | c :: cs, pos, 0 =>
    if isPunct c then
      let r := ((c :: cs).takeWhile isPunct).length
      if lookahead ((c :: cs).drop r) then (pos + r) :: sentGo cs (pos + 1) (r - 1)
      else sentGo cs (pos + 1) 0
    else sentGo cs (pos + 1) 0

/-- All regex match ends in the text, in scan order. -/
def matchEnds (t : Text) : List Nat := sentGo t 0 0

/-- `EN_ABBREVIATIONS` from the source. -/
def EN_ABBREVIATIONS : List String :=
  ["Mr", "Mrs", "Ms", "Mx", "Dr", "Prof", "Rev", "Hon", "Sr", "Jr",
   "St", "Gen", "Col", "Maj", "Capt", "Lt", "Sgt", "Adm",
   "PhD", "Ph.D", "M.D", "MD", "B.Sc", "M.Sc", "B.A", "M.A", "LL.B", "J.D",
   "D.D.S", "D.O", "Ed.D", "Psy.D", "M.B.A", "B.Com", "B.Eng",
   "etc", "e.g", "i.e", "vs", "cf", "viz", "al", "approx", "ca",
   "p.s", "P.S", "a.k.a", "aka",
   "Jan", "Feb", "Mar", "Apr", "Jun", "Jul", "Aug", "Sep", "Sept", "Oct", "Nov", "Dec",
   "a.m", "p.m", "A.M", "P.M",
   "ft", "in", "lb", "oz", "pt", "gal", "mm", "cm", "km", "kg", "mg",
   "ml", "L", "Hz", "kHz", "MHz", "GHz", "°C", "°F",
   "U.S", "U.K", "U.N", "E.U", "N.A.T.O", "O.E.C.D", "Inc", "Co", "Ltd", "Corp", "Univ",
   "Dept", "Mt", "Ft", "Rd", "Ave", "Blvd", "Sq", "Ctr"]

/-- `CS_ABBREVIATIONS` from the source. -/
def CS_ABBREVIATIONS : List String :=
  ["Ing", "Mgr", "Ph.D", "PhD", "Bc", "JUDr", "RNDr", "doc", "prof", "MUDr",
   "PaedDr", "ThDr", "PhDr", "MVDr", "DrSc", "CSc", "DiS", "RSDr", "MBA",
   "plk", "pplk", "npor", "por", "kpt", "mjr", "gen", "brig", "rtm",
   "tj", "např", "atd", "apod", "aj", "resp", "př", "tzv", "mjr", "čj", "čp",
   "č", "obr", "tab", "str", "příl", "pozn", "zkr", "odd", "kap",
   "ČR", "ČSR", "ČSFR", "ČSSR", "SR", "EU", "OSN", "SNP", "ÚV", "AV", "UK",
   "SVJ", "OV", "MŠMT", "MF", "MZV", "ČNB",
   "s.r.o", "a.s", "v.o.s", "o.p.s", "n.o", "spol", "z.s", "a spol",
   "led", "ún", "břez", "dub", "květ", "červ", "srp", "září", "říj", "list", "pros",
   "čl", "bod", "odst", "§", "pozn"]

/-- `ABBREVIATIONS = EN_ABBREVIATIONS + CS_ABBREVIATIONS`, as character
lists. -/
def ABBREVIATIONS : List Text :=
  (EN_ABBREVIATIONS ++ CS_ABBREVIATIONS).map String.data

/-- The abbreviation test of the source at a match end `e`:
`text[max(0, e - len(abbr) - 1) : e - 1] == abbr` for some table entry
(the characters right before the final punctuation character of the match). -/
def abbrevAt (t : Text) (e : Nat) : Bool :=
  ABBREVIATIONS.any (fun a => pySlice t (e - 1 - a.length) (e - 1) == a)

/-- Match ends that survive the abbreviation filter, in order;
these are exactly the boundaries the source accepts. -/
def acceptedEnds (t : Text) : List Nat :=
  (matchEnds t).filter (fun e => !(abbrevAt t e))

/-- Boundary shift at an accepted end `e` whose following fragment extends to
`b`: the boundary moves one to the right when that fragment is nonempty and
starts with a whitespace character (which is then re-attached to the previous
fragment). -/
def moveShift (t : Text) (e b : Nat) : Nat :=
  if e < b && pyIsSpace (charAt t e) then 1 else 0

/-- Fragment assembly of the source: consecutive accepted ends delimit the
fragments, and if a fragment other than the very first one starts with a
whitespace character, that character is moved to the end of the previous
fragment (shifting the boundary one to the right). -/
def assembleFrags (t : Text) : Nat → List Nat → List Text
  | start, [] => if start < t.length then [pySlice t start t.length] else []
  | start, [e] =>
    if e < t.length then
      [pySlice t start (e + moveShift t e t.length),
       pySlice t (e + moveShift t e t.length) t.length]
    else [pySlice t start e]
  | start, e :: e' :: rest =>
    pySlice t start (e + moveShift t e e') ::
      assembleFrags t (e + moveShift t e e') (e' :: rest)

/-- `split_sentences` from the source. -/
def split_sentences (text : Text) : List Text :=
  if text = [] then [] else assembleFrags text 0 (acceptedEnds text)

/-- The raw fragments delimited by the accepted ends, before any whitespace
is moved (`text[start:end]` chunks of the source loop). -/
def rawFragsGo (t : Text) : Nat → List Nat → List Text
  | start, [] => if start < t.length then [pySlice t start t.length] else []
  | start, e :: rest => pySlice t start e :: rawFragsGo t e rest

/-- Raw (pre-whitespace-move) fragments of the whole text. -/
def rawFrags (t : Text) : List Text :=
  if t = [] then [] else rawFragsGo t 0 (acceptedEnds t)

/-- Modelled from the spec's wording of the whitespace rule: every fragment
except the first that begins with a whitespace character has exactly that one
character removed and appended to the previous fragment. -/
def specMoveWsGo : Text → List Text → List Text
  | prev, [] => [prev]
  | prev, f :: fs =>
    match f with
    | c :: f' =>
      if pyIsSpace c then (prev ++ [c]) :: specMoveWsGo f' fs
      else prev :: specMoveWsGo (c :: f') fs
    | [] => prev :: specMoveWsGo [] fs

/-- Spec-worded whitespace reassignment over a fragment list (the first
fragment is never changed at its front). -/
def specMoveWs : List Text → List Text
  | [] => []
  | f :: fs => specMoveWsGo f fs

/-- The boundary-candidate property from the claim: position `e` ends a
punctuation run (`t[e-1]` is one of `.!?`) and is immediately followed by
whitespace, end of text, a closing bracket, or a double-open-bracket token
(the regex lookahead). -/
def candidateEnd (t : Text) (e : Nat) : Prop :=
  1 ≤ e ∧ e ≤ t.length ∧ isPunct (charAt t (e - 1)) = true ∧ lookahead (t.drop e) = true

/-!
## Document tree model

`LeafDocumentNode` / `InnerDocumentNode` of the source become the two
constructors of `DocNode`; a node's children list is the mutually inductive
`DocForest` (so that all recursions stay structural).  `textOf` is
`AbstractDocumentNode.text` (leaf text, or concatenation over children),
`leavesOf` lists the leaf texts in traversal order (what
`iter_leaves`/`split_node_to_list` extract), and `namesOf` the inner-node
names in preorder.  Python's mutable tree is modelled by paths (lists of
child indices) from the root; `add_child` becomes `addChildAt`, which
appends a child at the node addressed by a path (paths of existing nodes are
stable because children are only ever appended or replaced in place).
-/
mutual
inductive DocNode where
  | leaf (doc : Text)
  | inner (name : Text) (children : DocForest)
inductive DocForest where
  | nil
  | cons (hd : DocNode) (tl : DocForest)
end

mutual
def textOf : DocNode → Text
  | .leaf d => d
  | .inner _ cs => textF cs
def textF : DocForest → Text
  | .nil => []
  | .cons c cs => textOf c ++ textF cs
end

mutual
def leavesOf : DocNode → List Text
  | .leaf d => [d]
  | .inner _ cs => leavesF cs
def leavesF : DocForest → List Text
  | .nil => []
  | .cons c cs => leavesOf c ++ leavesF cs
end

mutual
def namesOf : DocNode → List Text
  | .leaf _ => []
  | .inner n cs => n :: namesF cs
def namesF : DocForest → List Text
  | .nil => []
  | .cons c cs => namesOf c ++ namesF cs
end

/-- Number of children in a forest. -/
def lenF : DocForest → Nat
  | .nil => 0
  | .cons _ tl => lenF tl + 1

/-- Append a child at the end (`add_child`). -/
def snocF : DocForest → DocNode → DocForest
  | .nil, x => .cons x .nil
  | .cons h t, x => .cons h (snocF t x)

/-- Child at index `i` (out of range: an empty leaf, never hit in valid
paths). -/
def getF : DocForest → Nat → DocNode
  | .nil, _ => .leaf []
  | .cons h _, 0 => h
  | .cons _ t, i + 1 => getF t i

/-- Replace the child at index `i` (`set_child`). -/
def setF : DocForest → Nat → DocNode → DocForest
  | .nil, _, _ => .nil
  | .cons _ t, 0, x => .cons x t
  | .cons h t, i + 1, x => .cons h (setF t i x)

/-- Append `child` under the node addressed by `path` (Python
`node.add_child(child)` through a reference into the tree). -/
def addChildAt : DocNode → List Nat → DocNode → DocNode
  | .inner n cs, [], child => .inner n (snocF cs child)
  | .inner n cs, i :: p, child => .inner n (setF cs i (addChildAt (getF cs i) p child))
  | .leaf d, _, _ => .leaf d

/-- Number of children of the node addressed by `path`. -/
def childCountAt : DocNode → List Nat → Nat
  | .leaf _, _ => 0
  | .inner _ cs, [] => lenF cs
  | .inner _ cs, i :: p => childCountAt (getF cs i) p

/-- `path` addresses an inner node along the rightmost spine: every index on
the way is the last child of its parent.  Children appended at such a node
land at the very end of the whole reconstructed text. -/
def rvInner : DocNode → List Nat → Prop
  | .leaf _, _ => False
  | .inner _ _, [] => True
  | .inner _ cs, i :: p => i + 1 = lenF cs ∧ rvInner (getF cs i) p

/-!
## `split_md`

The external `ExperimentalMarkdownSyntaxTextSplitter` is out of scope
(spec: an external collaborator); its output is the parameter of the model:
a list of chunks, each a content string plus header metadata mapping levels
1..6 to header texts (`'Header 1'..'Header 6'` keys in the source).  The
stated contract is only that the contents concatenate to the parsed text.
`split_md` rebuilds the section tree exactly as the source does.  The
Python stack (bottom at index 0, top at the end) is stored reversed
(`rstack`, top first), so `stack[-1]` is the head, `stack[:level]` is
`drop (length - level)`, and `stack[level]` is `getD (length - 1 - level)`.
`reuse` counts how often the "section already exists" branch is taken.
-/
/-- A chunk from the external markdown parser: content plus header metadata
(association of header level to header text). -/
structure MdChunk where
  content : Text
  headers : List (Nat × Text)

/-- The header levels (1..6) present in a chunk's metadata, as collected by
the source's loop over `'Header 1'..'Header 6'`. -/
def headerLevels (c : MdChunk) : List Nat :=
  (List.range' 1 6).filter (fun l => (c.headers.lookup l).isSome)

/-- `max(headers.keys())` (only meaningful for a chunk with headers). -/
def maxLevel (c : MdChunk) : Nat := (headerLevels c).foldl max 0

/-- A frame of the sectioning stack: `(level, header_name, node)` with the
node referenced by its path from the root. -/
structure Frame where
  level : Nat
  name : Text
  path : List Nat

def defaultFrame : Frame := ⟨0, [], []⟩

/-- State while consuming chunks: the tree under construction, the reversed
stack (head = Python `stack[-1]`), and the count of reuse-branch visits. -/
structure MdState where
  root : DocNode
  rstack : List Frame
  reuse : Nat

/-- `while len(stack) > 1 and stack[-1][0] >= max_level: stack.pop()`. -/
def popLoop (maxL : Nat) : List Frame → List Frame
  | [] => []
  | [f] => [f]
  | f :: g :: rest =>
    if maxL ≤ f.level then popLoop maxL (g :: rest) else f :: g :: rest

/-- Python `stack[level]` (index from the bottom of the stack). -/
def stackNth (rstack : List Frame) (level : Nat) : Frame :=
  rstack.getD (rstack.length - 1 - level) defaultFrame

/-- One iteration of `for level in range(stack[-1][0] + 1, max_level + 1)`:
reuse a matching open section, or create a new section node (named from the
metadata, or the `"DUMMY"` placeholder when the level is missing) under the
current top and push it, truncating the stack to `stack[:level]` first. -/
def levelStep (ch : MdChunk) (st : MdState) (level : Nat) : MdState :=
  let parent := st.rstack.headD defaultFrame
  match ch.headers.lookup level with
  | some name =>
    if st.rstack.length > level ∧ (stackNth st.rstack level).level = level ∧
        (stackNth st.rstack level).name = name then
      { st with reuse := st.reuse + 1 }
    else
      { root := addChildAt st.root parent.path (.inner name .nil),
        rstack := ⟨level, name, parent.path ++ [childCountAt st.root parent.path]⟩ ::
          st.rstack.drop (st.rstack.length - level),
        reuse := st.reuse }
  | none =>
    { root := addChildAt st.root parent.path (.inner "DUMMY".data .nil),
      rstack := ⟨level, "DUMMY".data, parent.path ++ [childCountAt st.root parent.path]⟩ ::
        st.rstack.drop (st.rstack.length - level),
      reuse := st.reuse }

/-- Processing one chunk: headerless content goes directly under the root;
otherwise pop closed sections, open the levels up to the deepest one, and
append the content as a leaf under the top section. -/
def processChunk (st : MdState) (ch : MdChunk) : MdState :=
  if headerLevels ch = [] then
    { st with root := addChildAt st.root [] (.leaf ch.content) }
  else
    let rstack1 := popLoop (maxLevel ch) st.rstack
    let st1 : MdState := { st with rstack := rstack1 }
    let lo := (rstack1.headD defaultFrame).level + 1
    let st2 := (List.range' lo (maxLevel ch + 1 - lo)).foldl (levelStep ch) st1
    { st2 with root :=
        addChildAt st2.root (st2.rstack.headD defaultFrame).path (.leaf ch.content) }

/-- The initial state: an empty `"ROOT"` node, the stack holding only
`(0, "ROOT", root)`. -/
def initState : MdState :=
  ⟨.inner "ROOT".data .nil, [⟨0, "ROOT".data, []⟩], 0⟩

/-- The full state after consuming all chunks. -/
def split_mdState (chunks : List MdChunk) : MdState :=
  chunks.foldl processChunk initState

/-- `split_md` from the source, parameterised by the external parser's
chunks: the rebuilt section tree. -/
def split_md (chunks : List MdChunk) : DocNode :=
  (split_mdState chunks).root

/-- The text the chunks concatenate to (by the external parser's contract,
the parsed input text). -/
def chunksText (chunks : List MdChunk) : Text :=
  (chunks.map MdChunk.content).flatten

/-- Well-formed stack levels: top-first, the levels are `len-1, …, 1, 0`. -/
def stackLevelsOK (rstack : List Frame) : Prop :=
  rstack.map Frame.level = (List.range rstack.length).reverse

/-- The stack frames' node paths form a chain: the bottom frame is the root
(path `[]`) and each frame's node is a child of the frame below it. -/
def ChainFrames : List Frame → Prop
  | [] => True
  | [f] => f.path = []
  | f :: g :: rest => (∃ i, f.path = g.path ++ [i]) ∧ ChainFrames (g :: rest)

/-- The structural invariant of the sectioning loop: the stack is nonempty,
its paths chain bottom-up from the root, and the top frame's node is an
inner node on the rightmost spine of the tree. -/
def InvB (root : DocNode) (rstack : List Frame) : Prop :=
  rstack ≠ [] ∧ ChainFrames rstack ∧ rvInner root (rstack.headD defaultFrame).path

/-- Chunk sequences in which headerless chunks (content before any header)
all precede the headered ones — the shape the structural parser produces. -/
def PhasedChunks (chunks : List MdChunk) : Prop :=
  ∃ pre post, chunks = pre ++ post ∧ (∀ c ∈ pre, headerLevels c = []) ∧
    (∀ c ∈ post, headerLevels c ≠ [])

/-- The two-chunk sequence with header levels 1 then {1,3} (level 2
skipped). -/
def gapChunks : List MdChunk :=
  [⟨"a".data, [(1, "A".data)]⟩, ⟨"c".data, [(1, "A".data), (3, "C".data)]⟩]

/-- A chunk sequence satisfying the parser's stated contract (contents
concatenate to the input) with a headerless chunk between headered ones and
a skipped level: reconstruction fails on it. -/
def cexChunks : List MdChunk :=
  [⟨"a".data, [(1, "A".data)]⟩, ⟨"b".data, []⟩,
   ⟨"c".data, [(1, "A".data), (3, "C".data)]⟩]

/-!
## `split_node` / `split_node_to_list`

The cascade applies each stage's splitter to every leaf longer than
`maxLength`, greedily re-merges the pieces, and replaces the leaf in place
with an inner node of the merged pieces.  The source's stage table is
`[("PAR", split_paragraphs), ("SNT", split_sentences), ("CHR", split_chars)]`
and every stage is invoked as `split_fn(leaf.text())` — one argument.
`split_chars` requires a second positional argument (`maxLength`), so the
`"CHR"` stage raises `TypeError` the moment it is actually called, i.e.
whenever a leaf longer than the bound survives the sentence stage.  The
`assert` statements of the source are modelled as `AssertionError` checks.
-/
/-- The `"PAR"` stage splitter (`split_paragraphs`, one argument). -/
def parSplit (d : Text) : Except PyErr (List Text) := .ok (split_paragraphs d)

/-- The `"SNT"` stage splitter (`split_sentences`, one argument). -/
def sntSplit (d : Text) : Except PyErr (List Text) := .ok (split_sentences d)

/-- The `"CHR"` stage splitter: the source passes `split_chars`, a function
of two required arguments, where a one-argument splitter is expected, so the
call `split_fn(leaf.text())` raises
`TypeError: split_chars() missing 1 required positional argument` whenever it
is reached. -/
def chrSplit (_ : Text) : Except PyErr (List Text) := .error .typeError

/-- Build a forest from a list of nodes. -/
def ofListF : List DocNode → DocForest
  | [] => .nil
  | x :: xs => .cons x (ofListF xs)

/-- Split one oversized leaf with the stage splitter, greedily re-merge the
pieces (`merge_chunks_greedy` over their lengths), check exact reassembly
(the source's `assert`), and build the replacement inner node tagged with the
stage name. -/
def splitMergeLeaf (stage : Text) (fn : Text → Except PyErr (List Text))
    (m : Int) (d : Text) : Except PyErr DocNode := do
  let chunks ← fn d
  let lengths := chunks.map (fun c => (c.length : Int))
  let segments := merge_chunks_greedy lengths m
  let merged := segments.map (fun seg => (seg.map (fun i => chunks.getD i [])).flatten)
  if merged.flatten = d then
    .ok (.inner stage (ofListF (merged.map .leaf)))
  else .error .assertionError

mutual
/-- One cascade stage over the whole tree: every leaf longer than
`maxLength` is replaced by the merged-splits inner node; a replacement's new
leaves are not revisited within the stage (the source's generator has
already yielded past them). -/
def boundLeaves (stage : Text) (fn : Text → Except PyErr (List Text))
    (m : Int) : DocNode → Except PyErr DocNode
  | .leaf d =>
    if (d.length : Int) > m then splitMergeLeaf stage fn m d else .ok (.leaf d)
  | .inner nm cs => do
    let cs' ← boundLeavesF stage fn m cs
    .ok (.inner nm cs')
def boundLeavesF (stage : Text) (fn : Text → Except PyErr (List Text))
    (m : Int) : DocForest → Except PyErr DocForest
  | .nil => .ok .nil
  | .cons c cs => do
    let c' ← boundLeaves stage fn m c
    let cs' ← boundLeavesF stage fn m cs
    .ok (.cons c' cs')
end

/-- `split_node` from the source, parameterised by the external parser's
chunks (whose contents concatenate to the input text): section the document,
then run the paragraph, sentence and character stages in order, then check
no leaf is too long and that the text is reconstructed. -/
def split_node (chunks : List MdChunk) (maxLength : Int) : Except PyErr DocNode :=
  let t := chunksText chunks
  let root := split_md chunks
  if textOf root = t then do
    let r1 ← boundLeaves "PAR".data parSplit maxLength root
    let r2 ← boundLeaves "SNT".data sntSplit maxLength r1
    let r3 ← boundLeaves "CHR".data chrSplit maxLength r2
    if (leavesOf r3).all (fun d => decide ((d.length : Int) ≤ maxLength)) then
      if textOf r3 = t then .ok r3 else .error .assertionError
    else .error .assertionError
  else .error .assertionError

/-- `split_node_to_list` from the source: the final ordered leaf texts. -/
def split_node_to_list (chunks : List MdChunk) (maxLength : Int) :
    Except PyErr (List Text) :=
  (split_node chunks maxLength).map leavesOf

theorem pySlice_zero_length (t : Text) : pySlice t 0 t.length = t := by
  simp [pySlice]

theorem pySlice_append (t : Text) {a b c : Nat} (hab : a ≤ b) (hbc : b ≤ c) :
    pySlice t a b ++ pySlice t b c = pySlice t a c := by
  unfold pySlice
  have hdrop : t.drop b = (t.drop a).drop (b - a) := by
    rw [List.drop_drop]
    congr 1
    omega
  rw [hdrop, ← List.take_add]
  congr 1
  omega

theorem pySlice_self (t : Text) (a : Nat) : pySlice t a a = [] := by
  simp [pySlice]

theorem drop_eq_charAt_cons (t : Text) {e : Nat} (h : e < t.length) :
    t.drop e = charAt t e :: t.drop (e + 1) := by
  rw [List.drop_eq_getElem_cons h]
  have : charAt t e = t[e] := by
    unfold charAt
    rw [List.drop_eq_getElem_cons h]
    rfl
  rw [this]

theorem pySlice_cons (t : Text) {e b : Nat} (he : e < t.length) (heb : e < b) :
    pySlice t e b = charAt t e :: pySlice t (e + 1) b := by
  unfold pySlice
  rw [drop_eq_charAt_cons t he]
  have : b - e = (b - (e + 1)) + 1 := by omega
  rw [this, List.take_succ_cons]

theorem pySlice_snoc (t : Text) {a e : Nat} (hae : a ≤ e) (he : e < t.length) :
    pySlice t a (e + 1) = pySlice t a e ++ [charAt t e] := by
  have h1 : pySlice t a (e + 1) = pySlice t a e ++ pySlice t e (e + 1) :=
    (pySlice_append t hae (Nat.le_succ e)).symm
  rw [h1, pySlice_cons t he (Nat.lt_succ_self e)]
  simp [pySlice_self]

theorem charRuns_flatten : ∀ t : Text, (charRuns t).flatten = t := by
  intro t
  induction t with
  | nil => rfl
  | cons c cs ih =>
    unfold charRuns
    cases h : charRuns cs with
    | nil =>
      rw [h] at ih
      simp only [List.flatten_nil] at ih
      dsimp only
      simp [← ih]
    | cons g gs =>
      rw [h] at ih
      cases g with
      | nil =>
        dsimp only
        simp only [List.flatten_cons, List.nil_append] at ih ⊢
        simp [ih]
      | cons d ds =>
        dsimp only
        by_cases hc : (c = '\n') = (d = '\n')
        · rw [if_pos hc]
          simp only [List.flatten_cons] at ih ⊢
          rw [List.cons_append, ih]
        · rw [if_neg hc]
          simp only [List.flatten_cons] at ih ⊢
          rw [ih]
          rfl

/-- Each run is nonempty and homogeneous with respect to being a newline. -/
theorem charRuns_homog : ∀ t : Text, ∀ r ∈ charRuns t,
    r ≠ [] ∧ ∀ c ∈ r, (c = '\n') = (headChar r = '\n') := by
  intro t
  induction t with
  | nil => intro r hr; simp [charRuns] at hr
  | cons c cs ih =>
    intro r hr
    unfold charRuns at hr
    cases h : charRuns cs with
    | nil =>
      rw [h] at hr; simp at hr; subst hr
      refine ⟨by simp, ?_⟩
      intro x hx; simp at hx; subst hx; simp [headChar]
    | cons g gs =>
      rw [h] at hr
      cases g with
      | nil =>
        exact absurd rfl (ih [] (by rw [h]; simp)).1
      | cons d ds =>
        dsimp only at hr
        by_cases hc : (c = '\n') = (d = '\n')
        · rw [if_pos hc] at hr
          rcases List.mem_cons.mp hr with hr | hr
          · subst hr
            have hd := ih (d :: ds) (by rw [h]; simp)
            refine ⟨by simp, ?_⟩
            intro x hx
            rcases List.mem_cons.mp hx with hx | hx
            · subst hx; rfl
            · have hx2 := hd.2 x hx
              show (x = '\n') = (c = '\n')
              rw [hx2]
              show (headChar (d :: ds) = '\n') = (c = '\n')
              exact hc.symm
          · exact ih r (by rw [h]; simp [hr])
        · rw [if_neg hc] at hr
          rcases List.mem_cons.mp hr with hr | hr
          · subst hr
            exact ⟨by simp, by intro x hx; simp at hx; subst hx; rfl⟩
          · rcases List.mem_cons.mp hr with hr | hr
            · subst hr; exact ih (d :: ds) (by rw [h]; simp)
            · exact ih r (by rw [h]; simp [hr])

theorem mergeParas_flatten : ∀ (ps : List Text) (buf : Text),
    (mergeParas ps buf).flatten = buf ++ ps.flatten := by
  intro ps
  induction ps with
  | nil =>
    intro buf
    unfold mergeParas
    cases hb : buf.isEmpty
    · simp [hb]
    · have : buf = [] := by
        cases buf with
        | nil => rfl
        | cons a l => simp [List.isEmpty] at hb
      subst this
      simp
  | cons p ps ih =>
    intro buf
    unfold mergeParas
    by_cases h : headChar p = '\n'
    · rw [if_pos h]
      simp only [List.flatten_cons, ih]
      simp
    · rw [if_neg h]
      rw [ih]
      simp

theorem split_paragraphs_flatten (t : Text) : (split_paragraphs t).flatten = t := by
  unfold split_paragraphs
  rw [mergeParas_flatten, charRuns_flatten]
  simp

theorem mergeParas_dropLast_newline :
    ∀ (ps : List Text) (buf : Text),
    (∀ p ∈ ps, p ≠ [] ∧ ∀ c ∈ p, (c = '\n') = (headChar p = '\n')) →
    ∀ f ∈ (mergeParas ps buf).dropLast, f.getLast? = some '\n' := by
  intro ps
  induction ps with
  | nil =>
    intro buf _ f hf
    unfold mergeParas at hf
    cases hb : buf.isEmpty <;> rw [hb] at hf <;> simp at hf
  | cons p ps ih =>
    intro buf hps f hf
    have hp := hps p (by simp)
    unfold mergeParas at hf
    by_cases h : headChar p = '\n'
    · rw [if_pos h] at hf
      cases hrest : mergeParas ps [] with
      | nil => rw [hrest] at hf; simp at hf
      | cons q qs =>
        rw [hrest, List.dropLast_cons_of_ne_nil (by simp)] at hf
        rcases List.mem_cons.mp hf with hf | hf
        · subst hf
          have hpne : p ≠ [] := hp.1
          rw [List.getLast?_append_of_ne_nil buf hpne]
          have hlast : p.getLast? = some (p.getLast hpne) := List.getLast?_eq_getLast p hpne
          rw [hlast]
          have hmem : p.getLast hpne ∈ p := List.getLast_mem hpne
          have hx := (hp.2 (p.getLast hpne) hmem)
          rw [h] at hx
          simp only [eq_iff_iff, iff_true] at hx
          rw [hx]
        · have := ih [] (fun q hq => hps q (by simp [hq])) f
          rw [hrest] at this
          exact this hf
    · rw [if_neg h] at hf
      exact ih (buf ++ p) (fun q hq => hps q (by simp [hq])) f hf

theorem split_paragraphs_dropLast_newline (t : Text) :
    ∀ f ∈ (split_paragraphs t).dropLast, f.getLast? = some '\n' := by
  unfold split_paragraphs
  exact mergeParas_dropLast_newline (charRuns t) [] (charRuns_homog t)

/-- C6: `split_paragraphs` reconstructs its input exactly, every fragment
except possibly the last ends with the newline run that terminates it (in
particular ends with a newline character), the empty text yields no
fragments, and `split_paragraphs "a\n\nb" = ["a\n\n", "b"]`. -/
theorem claim_C6_split_paragraphs :
    (∀ t : Text, (split_paragraphs t).flatten = t ∧
      ∀ f ∈ (split_paragraphs t).dropLast, f.getLast? = some '\n') ∧
    split_paragraphs [] = [] ∧
    split_paragraphs "a\n\nb".data = ["a\n\n".data, "b".data] := by
  refine ⟨fun t => ⟨split_paragraphs_flatten t, split_paragraphs_dropLast_newline t⟩,
    by decide, by decide⟩

/-- Witness for C6: the fragment `"a\n\n"` is a non-final fragment of
`split_paragraphs "a\n\nb"` and indeed ends with a newline. -/
theorem claim_C6_split_paragraphs_witness :
    ("a\n\n".data : Text).getLast? = some '\n' :=
  (claim_C6_split_paragraphs.1 "a\n\nb".data).2 "a\n\n".data (by decide)

/-- C7 counterexample: the claim fails at `text = ""`, `maxLength = 0`: the
empty text returns `[]` before the bound is checked, so no error is raised
even though the bound is invalid. -/
theorem claim_C7_cex_empty_text :
    split_chars [] 0 = Except.ok [] ∧ (0 : Int) ≤ 0 := by
  constructor
  · rfl
  · decide

/-- C7 (amended): only for *nonempty* text does a bound `maxLength ≤ 0`
raise `ValueError`; `split_chars "" m = ok []` for every `m` since the
empty-text check precedes the bound check. -/
theorem claim_C7_split_chars_invalid_bound (text : Text) (maxLength : Int)
    (hne : text ≠ []) (hm : maxLength ≤ 0) :
    split_chars text maxLength = Except.error PyErr.valueError := by
  unfold split_chars
  rw [if_neg hne, if_pos hm]

/-- Witness for C7: a concrete nonempty text with bound `0` raises. -/
theorem claim_C7_split_chars_invalid_bound_witness :
    split_chars "a".data 0 = Except.error PyErr.valueError :=
  claim_C7_split_chars_invalid_bound "a".data 0 (by decide) (by decide)

theorem absorbCount_le_length (m s : Int) : ∀ ys : List Int,
    absorbCount m s ys ≤ ys.length := by
  intro ys
  induction ys generalizing s with
  | nil => simp [absorbCount]
  | cons y ys ih =>
    unfold absorbCount
    by_cases h : s + y ≤ m
    · rw [if_pos h]
      simp only [List.length_cons]
      have := ih (s + y)
      omega
    · rw [if_neg h]
      simp

/-- Sum of the lengths the absorb loop takes stays within the bound. -/
theorem absorbCount_sum_le (m : Int) : ∀ (ys : List Int) (s : Int), s ≤ m →
    s + ((ys.take (absorbCount m s ys)).sum) ≤ m := by
  intro ys
  induction ys with
  | nil => intro s hs; simpa [absorbCount]
  | cons y ys ih =>
    intro s hs
    unfold absorbCount
    by_cases h : s + y ≤ m
    · rw [if_pos h]
      have := ih (s + y) h
      simp only [Nat.add_comm 1, List.take_succ_cons, List.sum_cons]
      omega
    · rw [if_neg h]
      simpa

/-- When the absorb loop stops before the end, the next item overflows. -/
theorem absorbCount_stop (m : Int) : ∀ (ys : List Int) (s : Int),
    absorbCount m s ys < ys.length →
    s + (ys.take (absorbCount m s ys)).sum + ys.getD (absorbCount m s ys) 0 > m := by
  intro ys
  induction ys with
  | nil => intro s hs; simp at hs
  | cons y ys ih =>
    intro s hs
    unfold absorbCount at hs ⊢
    by_cases h : s + y ≤ m
    · rw [if_pos h] at hs ⊢
      simp only [List.length_cons] at hs
      have hlt : absorbCount m (s + y) ys < ys.length := by omega
      have := ih (s + y) hlt
      simp only [Nat.add_comm 1, List.take_succ_cons, List.sum_cons, List.getD_cons_succ]
      omega
    · rw [if_neg h] at hs ⊢
      simp only [List.take_zero, List.sum_nil, List.getD_cons_zero]
      omega

theorem getD_drop_int (xs : List Int) (a j : Nat) :
    (xs.drop a).getD j 0 = xs.getD (a + j) 0 := by
  rw [List.getD_eq_getElem?_getD, List.getD_eq_getElem?_getD, List.getElem?_drop]

theorem range'_append_nat (s m n : Nat) :
    List.range' s m ++ List.range' (s + m) n = List.range' s (m + n) := by
  have h := List.range'_append s m n 1
  rw [Nat.one_mul] at h
  rw [Nat.add_comm m n]
  exact h

theorem mcgGo_flatten (m : Int) : ∀ (fuel : Nat) (xs : List Int) (i : Nat),
    xs.length ≤ fuel → (mcgGo m fuel xs i).flatten = List.range' i xs.length := by
  intro fuel
  induction fuel with
  | zero =>
    intro xs i h
    have : xs = [] := List.length_eq_zero.mp (Nat.le_zero.mp h)
    subst this
    rfl
  | succ fuel ih =>
    intro xs i h
    cases xs with
    | nil => rfl
    | cons x xs =>
      unfold mcgGo
      by_cases hx : x > m
      · rw [if_pos hx]
        simp only [List.flatten_cons]
        rw [ih xs (i + 1) (by simpa using h)]
        have := range'_append_nat i 1 xs.length
        simpa [Nat.add_comm] using this
      · rw [if_neg hx]
        simp only [List.flatten_cons]
        have hk := absorbCount_le_length m x xs
        set k := absorbCount m x xs with hkdef
        have hlen : (xs.drop k).length ≤ fuel := by
          simp only [List.length_drop]
          simp only [List.length_cons] at h
          omega
        rw [ih (xs.drop k) (i + k + 1) hlen]
        simp only [List.length_drop]
        have h2 := range'_append_nat i (k + 1) (xs.length - k)
        have harith : (k + 1) + (xs.length - k) = (x :: xs).length := by
          simp only [List.length_cons]
          omega
        rw [harith] at h2
        have harith2 : i + (k + 1) = i + k + 1 := by omega
        rw [harith2] at h2
        exact h2

/-- Translation of the greedy segment property from the suffix `l.drop c`
of a list `l` to `l` itself, shifting the in-suffix position `j` by `c`. -/
theorem segProp_shift (m : Int) (l : List Int) (c i j k' : Nat)
    (hjk : j + k' < (l.drop c).length)
    (hprop : (k' = 0 ∧ (l.drop c).getD j 0 > m) ∨
      ((((l.drop c).drop j).take (k' + 1)).sum ≤ m ∧
       (j + k' + 1 < (l.drop c).length →
         (((l.drop c).drop j).take (k' + 1)).sum + (l.drop c).getD (j + k' + 1) 0 > m))) :
    (c + j) + k' < l.length ∧
    ((k' = 0 ∧ l.getD (c + j) 0 > m) ∨
     (((l.drop (c + j)).take (k' + 1)).sum ≤ m ∧
      ((c + j) + k' + 1 < l.length →
        ((l.drop (c + j)).take (k' + 1)).sum + l.getD ((c + j) + k' + 1) 0 > m))) := by
  have hgetD : ∀ a : Nat, (l.drop c).getD a 0 = l.getD (c + a) 0 := fun a => getD_drop_int l c a
  have hdrop : ∀ a : Nat, (l.drop c).drop a = l.drop (c + a) := by
    intro a
    rw [List.drop_drop]
  have hlen : (l.drop c).length = l.length - c := List.length_drop c l
  constructor
  · rw [hlen] at hjk
    omega
  · rcases hprop with ⟨hk0, hget⟩ | ⟨hsum, hmax⟩
    · exact Or.inl ⟨hk0, by rw [← hgetD j]; exact hget⟩
    · refine Or.inr ⟨by rw [← hdrop j]; exact hsum, ?_⟩
      intro hlt
      have hlt' : j + k' + 1 < (l.drop c).length := by
        rw [hlen]
        rw [hlen] at hjk
        omega
      have hm := hmax hlt'
      rw [hdrop j, hgetD (j + k' + 1)] at hm
      have harg : c + (j + k' + 1) = (c + j) + k' + 1 := by omega
      rw [harg] at hm
      exact hm

/-- The per-segment greedy property of `mcgGo`, stated relative to the
remaining suffix `xs` whose head has absolute index `i`. -/
theorem mcgGo_segs (m : Int) : ∀ (fuel : Nat) (xs : List Int) (i : Nat),
    xs.length ≤ fuel → ∀ s ∈ mcgGo m fuel xs i,
    ∃ j k, s = List.range' (i + j) (k + 1) ∧ j + k < xs.length ∧
      ((k = 0 ∧ xs.getD j 0 > m) ∨
       (((xs.drop j).take (k + 1)).sum ≤ m ∧
        (j + k + 1 < xs.length →
          ((xs.drop j).take (k + 1)).sum + xs.getD (j + k + 1) 0 > m))) := by
  intro fuel
  induction fuel with
  | zero =>
    intro xs i h s hs
    have : xs = [] := List.length_eq_zero.mp (Nat.le_zero.mp h)
    subst this
    simp [mcgGo] at hs
  | succ fuel ih =>
    intro xs i h s hs
    cases xs with
    | nil => simp [mcgGo] at hs
    | cons x xs =>
      unfold mcgGo at hs
      by_cases hx : x > m
      · rw [if_pos hx] at hs
        rcases List.mem_cons.mp hs with hs | hs
        · subst hs
          exact ⟨0, 0, by simp, by simp, Or.inl ⟨rfl, by simpa using hx⟩⟩
        · obtain ⟨j, k, hseq, hjk, hprop⟩ := ih xs (i + 1) (by simpa using h) s hs
          have hx1 : xs = (x :: xs).drop 1 := rfl
          rw [hx1] at hjk hprop
          have := segProp_shift m (x :: xs) 1 i j k hjk hprop
          refine ⟨1 + j, k, ?_, this.1, this.2⟩
          rw [hseq]
          congr 1
          omega
      · rw [if_neg hx] at hs
        have hk := absorbCount_le_length m x xs
        set k := absorbCount m x xs with hkdef
        rcases List.mem_cons.mp hs with hs | hs
        · subst hs
          refine ⟨0, k, by simp, by simp; omega, Or.inr ⟨?_, ?_⟩⟩
          · have := absorbCount_sum_le m xs x (by omega)
            rw [← hkdef] at this
            simpa using this
          · intro hlt
            simp only [Nat.zero_add, List.length_cons] at hlt
            have hklt : k < xs.length := by omega
            have := absorbCount_stop m xs x (by rw [← hkdef]; exact hklt)
            rw [← hkdef] at this
            simp only [List.drop_zero, List.take_succ_cons, List.sum_cons,
              Nat.zero_add, List.getD_cons_succ]
            omega
        · have hlen : (xs.drop k).length ≤ fuel := by
            simp only [List.length_drop]
            simp only [List.length_cons] at h
            omega
          obtain ⟨j, k', hseq, hjk, hprop⟩ := ih (xs.drop k) (i + k + 1) hlen s hs
          have hx1 : xs.drop k = (x :: xs).drop (k + 1) := by
            rw [List.drop_succ_cons]
          rw [hx1] at hjk hprop
          have := segProp_shift m (x :: xs) (k + 1) i j k' hjk hprop
          refine ⟨(k + 1) + j, k', ?_, this.1, this.2⟩
          rw [hseq]
          congr 1
          omega

/-- C3: `merge_chunks_greedy` returns an ordered partition of `0..n-1` into
contiguous segments (their concatenation is `range n`); each segment is either
an oversize singleton (its single length exceeds the bound) or has summed
length at most the bound and is greedily maximal (the next adjacent item, if
any, would push the sum over the bound); and the three concrete examples from
the specification hold. -/
theorem claim_C3_merge_chunks_greedy (lengths : List Int) (maxLength : Int)
    (hnn : ∀ x ∈ lengths, 0 ≤ x) (hpos : 0 < maxLength) :
    (merge_chunks_greedy lengths maxLength).flatten = List.range lengths.length ∧
    (∀ s ∈ merge_chunks_greedy lengths maxLength, ∃ j k,
      s = List.range' j (k + 1) ∧ j + k < lengths.length ∧
      ((k = 0 ∧ lengths.getD j 0 > maxLength) ∨
       (((lengths.drop j).take (k + 1)).sum ≤ maxLength ∧
        (j + k + 1 < lengths.length →
          ((lengths.drop j).take (k + 1)).sum + lengths.getD (j + k + 1) 0 > maxLength)))) ∧
    merge_chunks_greedy [3, 3, 3] 5 = [[0], [1], [2]] ∧
    merge_chunks_greedy [1, 1, 1, 1] 2 = [[0, 1], [2, 3]] ∧
    merge_chunks_greedy [10] 5 = [[0]] := by
  refine ⟨?_, ?_, by decide, by decide, by decide⟩
  · rw [List.range_eq_range']
    exact mcgGo_flatten maxLength lengths.length lengths 0 (Nat.le_refl _)
  · intro s hs
    obtain ⟨j, k, hseq, hjk, hprop⟩ :=
      mcgGo_segs maxLength lengths.length lengths 0 (Nat.le_refl _) s hs
    exact ⟨j, k, by simpa using hseq, hjk, hprop⟩

/-- Witness for C3: the theorem applied at `lengths = [1,1,1,1]`,
`maxLength = 2` yields the concrete packing `[[0,1],[2,3]]`. -/
theorem claim_C3_merge_chunks_greedy_witness :
    merge_chunks_greedy [1, 1, 1, 1] 2 = [[0, 1], [2, 3]] :=
  (claim_C3_merge_chunks_greedy [1, 1, 1, 1] 2 (by decide) (by decide)).2.2.2.1

/-- A character strictly inside the `takeWhile` block satisfies the
predicate. -/
theorem headChar_drop_takeWhile (p : Char → Bool) :
    ∀ (l : Text) (i : Nat), i < (l.takeWhile p).length → p (headChar (l.drop i)) = true := by
  intro l
  induction l with
  | nil => intro i hi; simp [List.takeWhile] at hi
  | cons c cs ih =>
    intro i hi
    rw [List.takeWhile_cons] at hi
    by_cases hc : p c
    · rw [if_pos hc] at hi
      cases i with
      | zero => simpa [headChar] using hc
      | succ j =>
        simp only [List.length_cons, Nat.succ_lt_succ_iff] at hi
        simpa using ih j hi
    · rw [if_neg hc] at hi
      simp at hi

/-- Weakening the lower bound of a strictly increasing chain. -/
theorem chain_lt_weaken {a b : Nat} {l : List Nat} (hab : a ≤ b)
    (h : List.Chain (· < ·) b l) : List.Chain (· < ·) a l := by
  cases l with
  | nil => exact List.Chain.nil
  | cons x xs =>
    cases h with
    | cons hbx hrest => exact List.Chain.cons (by omega) hrest

/-- The match ends form a strictly increasing chain above `pos + skip`. -/
theorem sentGo_chain : ∀ (cs : Text) (pos skip : Nat),
    List.Chain (· < ·) (pos + skip) (sentGo cs pos skip) := by
  intro cs
  induction cs with
  | nil => intro pos skip; exact List.Chain.nil
  | cons c cs ih =>
    intro pos skip
    cases skip with
    | succ s =>
      show List.Chain _ _ (sentGo cs (pos + 1) s)
      have := ih (pos + 1) s
      have harith : pos + 1 + s = pos + (s + 1) := by omega
      rwa [harith] at this
    | zero =>
      show List.Chain _ _ (sentGo (c :: cs) pos 0)
      unfold sentGo
      by_cases hc : isPunct c
      · rw [if_pos hc]
        set r := ((c :: cs).takeWhile isPunct).length with hr
        have hr1 : 1 ≤ r := by
          rw [hr]
          rw [List.takeWhile_cons, if_pos hc]
          simp
        by_cases hl : lookahead ((c :: cs).drop r)
        · rw [if_pos hl]
          refine List.Chain.cons (by omega) ?_
          have := ih (pos + 1) (r - 1)
          have harith : pos + 1 + (r - 1) = pos + r := by omega
          rwa [harith] at this
        · rw [if_neg hl]
          exact chain_lt_weaken (by omega) (ih (pos + 1) 0)
      · rw [if_neg hc]
        exact chain_lt_weaken (by omega) (ih (pos + 1) 0)

/-- Every match end is within the scanned suffix. -/
theorem sentGo_le : ∀ (cs : Text) (pos skip : Nat),
    ∀ e ∈ sentGo cs pos skip, e ≤ pos + cs.length := by
  intro cs
  induction cs with
  | nil => intro pos skip e he; simp [sentGo] at he
  | cons c cs ih =>
    intro pos skip e he
    cases skip with
    | succ s =>
      have := ih (pos + 1) s e he
      simp only [List.length_cons]
      omega
    | zero =>
      unfold sentGo at he
      by_cases hc : isPunct c
      · rw [if_pos hc] at he
        set r := ((c :: cs).takeWhile isPunct).length with hr
        have hrle : r ≤ cs.length + 1 := by
          rw [hr]
          have := (@List.takeWhile_sublist Char (c :: cs) isPunct).length_le
          simpa using this
        by_cases hl : lookahead ((c :: cs).drop r)
        · rw [if_pos hl] at he
          rcases List.mem_cons.mp he with he | he
          · subst he; simp only [List.length_cons]; omega
          · have := ih (pos + 1) (r - 1) e he
            simp only [List.length_cons]
            omega
        · rw [if_neg hl] at he
          have := ih (pos + 1) 0 e he
          simp only [List.length_cons]
          omega
      · rw [if_neg hc] at he
        have := ih (pos + 1) 0 e he
        simp only [List.length_cons]
        omega

/-- Soundness of the scanner: every match end is a boundary candidate. -/
theorem sentGo_sound (t : Text) : ∀ (cs : Text) (pos skip : Nat),
    cs = t.drop pos → ∀ e ∈ sentGo cs pos skip, candidateEnd t e := by
  intro cs
  induction cs with
  | nil => intro pos skip hcs e he; simp [sentGo] at he
  | cons c cs ih =>
    intro pos skip hcs e he
    have hpos : pos < t.length := by
      by_contra hge
      push_neg at hge
      have : t.drop pos = [] := List.drop_eq_nil_of_le hge
      rw [← hcs] at this
      exact absurd this (by simp)
    have hcs' : cs = t.drop (pos + 1) := by
      have h1 : (t.drop pos).drop 1 = t.drop (pos + 1) := by
        rw [List.drop_drop]
      rw [← hcs] at h1
      simpa using h1
    cases skip with
    | succ s => exact ih (pos + 1) s hcs' e he
    | zero =>
      unfold sentGo at he
      by_cases hc : isPunct c
      · rw [if_pos hc] at he
        set r := ((c :: cs).takeWhile isPunct).length with hr
        have hr1 : 1 ≤ r := by
          rw [hr, List.takeWhile_cons, if_pos hc]
          simp
        have hrle : r ≤ cs.length + 1 := by
          rw [hr]
          have := (@List.takeWhile_sublist Char (c :: cs) isPunct).length_le
          simpa using this
        by_cases hl : lookahead ((c :: cs).drop r)
        · rw [if_pos hl] at he
          rcases List.mem_cons.mp he with he | he
          · subst he
            have hlen : (c :: cs).length = t.length - pos := by
              rw [hcs, List.length_drop]
            refine ⟨by omega, ?_, ?_, ?_⟩
            · simp only [List.length_cons] at hlen
              omega
            · have harith : pos + r - 1 = pos + (r - 1) := by omega
              rw [harith]
              have hdr : t.drop (pos + (r - 1)) = (c :: cs).drop (r - 1) := by
                rw [hcs, List.drop_drop]
              unfold charAt
              rw [hdr]
              exact headChar_drop_takeWhile isPunct (c :: cs) (r - 1) (by omega)
            · have hdr : t.drop (pos + r) = (c :: cs).drop r := by
                rw [hcs, List.drop_drop]
              rw [hdr]
              exact hl
          · exact ih (pos + 1) (r - 1) hcs' e he
        · rw [if_neg hl] at he
          exact ih (pos + 1) 0 hcs' e he
      · rw [if_neg hc] at he
        exact ih (pos + 1) 0 hcs' e he

/-- Accepted boundaries are sound: they satisfy the candidate property and
are not abbreviation-suppressed. -/
theorem acceptedEnds_sound (t : Text) (e : Nat) (he : e ∈ acceptedEnds t) :
    candidateEnd t e ∧ abbrevAt t e = false := by
  unfold acceptedEnds at he
  have hmem := List.mem_of_mem_filter he
  have hfilt := List.of_mem_filter he
  refine ⟨sentGo_sound t t 0 0 (by simp) e hmem, by simpa using hfilt⟩

/-- Accepted ends are pairwise increasing, positive, and bounded by the
text length. -/
theorem acceptedEnds_bounds (t : Text) :
    List.Pairwise (· < ·) (acceptedEnds t) ∧
    ∀ e ∈ acceptedEnds t, 1 ≤ e ∧ e ≤ t.length := by
  have hchain := sentGo_chain t 0 0
  have hpw : List.Pairwise (· < ·) (matchEnds t) := by
    have := List.chain_iff_pairwise.mp hchain
    exact (List.pairwise_cons.mp this).2
  constructor
  · exact hpw.filter _
  · intro e he
    unfold acceptedEnds at he
    have hmem := List.mem_of_mem_filter he
    have hle := sentGo_le t 0 0 e hmem
    have hcand := sentGo_sound t t 0 0 (by simp) e hmem
    exact ⟨hcand.1, by simpa using hle⟩

theorem pySlice_of_len_le (t : Text) {a : Nat} (h : t.length ≤ a) (b : Nat) :
    pySlice t a b = [] := by
  unfold pySlice
  rw [List.drop_eq_nil_of_le h]
  simp

theorem moveShift_le_one (t : Text) (e b : Nat) : moveShift t e b ≤ 1 := by
  unfold moveShift
  by_cases h : (e < b && pyIsSpace (charAt t e)) = true
  · rw [if_pos h]
  · rw [if_neg h]
    omega

theorem moveShift_lt (t : Text) {e b : Nat} (h : moveShift t e b = 1) : e < b := by
  unfold moveShift at h
  by_cases hc : (e < b && pyIsSpace (charAt t e)) = true
  · exact (Bool.and_eq_true_iff.mp hc).1 |> of_decide_eq_true
  · rw [if_neg hc] at h
    omega

/-- Concatenating the assembled fragments yields the text from `start` on,
provided the ends are increasing and lie between `start` and the length. -/
theorem assembleFrags_flatten (t : Text) : ∀ (ends : List Nat) (start : Nat),
    List.Pairwise (· < ·) ends → (∀ e ∈ ends, start ≤ e ∧ e ≤ t.length) →
    (assembleFrags t start ends).flatten = pySlice t start t.length := by
  intro ends
  induction ends with
  | nil =>
    intro start _ _
    unfold assembleFrags
    by_cases h : start < t.length
    · rw [if_pos h]; simp
    · rw [if_neg h]
      push_neg at h
      rw [pySlice_of_len_le t h]
      rfl
  | cons e rest ih =>
    intro start hpw hb
    have hse : start ≤ e := (hb e (by simp)).1
    have hen : e ≤ t.length := (hb e (by simp)).2
    cases rest with
    | nil =>
      unfold assembleFrags
      by_cases h : e < t.length
      · rw [if_pos h]
        have hs1 := moveShift_le_one t e t.length
        simp only [List.flatten_cons, List.flatten_nil, List.append_nil]
        exact pySlice_append t (by omega) (by omega)
      · rw [if_neg h]
        have : e = t.length := by omega
        subst this
        simp
    | cons e' rest' =>
      have hee' : e < e' := (List.pairwise_cons.mp hpw).1 e' (by simp)
      have he'n : e' ≤ t.length := (hb e' (by simp)).2
      have hs1 := moveShift_le_one t e e'
      unfold assembleFrags
      simp only [List.flatten_cons]
      rw [ih (e + moveShift t e e') (List.pairwise_cons.mp hpw).2 ?hb1]
      case hb1 =>
        intro x hx
        have hxb := hb x (by simp [hx])
        have hlt : e < x := (List.pairwise_cons.mp hpw).1 x hx
        refine ⟨?_, hxb.2⟩
        rcases Nat.lt_or_ge (moveShift t e e') 1 with hz | ho
        · omega
        · have h1 : moveShift t e e' = 1 := by omega
          have := moveShift_lt t h1
          rcases List.mem_cons.mp hx with hx' | hx'
          · omega
          · have : e' < x := (List.pairwise_cons.mp (List.pairwise_cons.mp hpw).2).1 x hx'
            omega
      exact pySlice_append t (by omega) (by omega)

theorem assembleFrags_nil_eq (t : Text) (start : Nat) :
    assembleFrags t start [] =
      if start < t.length then [pySlice t start t.length] else [] := rfl

theorem assembleFrags_single_eq (t : Text) (start e : Nat) :
    assembleFrags t start [e] =
      if e < t.length then
        [pySlice t start (e + moveShift t e t.length),
         pySlice t (e + moveShift t e t.length) t.length]
      else [pySlice t start e] := rfl

theorem assembleFrags_cons_cons_eq (t : Text) (start e e' : Nat) (rest : List Nat) :
    assembleFrags t start (e :: e' :: rest) =
      pySlice t start (e + moveShift t e e') ::
        assembleFrags t (e + moveShift t e e') (e' :: rest) := rfl

/-- The source's assembly (boundary shifting) coincides with the spec-worded
whitespace move applied to the raw fragments. -/
theorem rawFrags_spec (t : Text) : ∀ (rest : List Nat) (e start : Nat),
    start ≤ e → e ≤ t.length →
    List.Pairwise (· < ·) (e :: rest) → (∀ x ∈ rest, x ≤ t.length) →
    specMoveWsGo (pySlice t start e) (rawFragsGo t e rest)
      = assembleFrags t start (e :: rest) := by
  intro rest
  induction rest with
  | nil =>
    intro e start hse hen _ _
    show specMoveWsGo (pySlice t start e) (if e < t.length then [pySlice t e t.length] else [])
      = assembleFrags t start [e]
    rw [assembleFrags_single_eq]
    by_cases he : e < t.length
    · rw [if_pos he, if_pos he]
      rw [pySlice_cons t he (by omega)]
      by_cases hsp : pyIsSpace (charAt t e) = true
      · have hms : moveShift t e t.length = 1 := by
          unfold moveShift
          rw [if_pos (by simp [he, hsp])]
        simp only [specMoveWsGo, if_pos hsp, hms]
        rw [← pySlice_snoc t hse he]
      · have hms : moveShift t e t.length = 0 := by
          unfold moveShift
          rw [if_neg (by simp [hsp])]
        simp only [specMoveWsGo, if_neg hsp, hms]
        rw [← pySlice_cons t he (by omega)]
        simp
    · rw [if_neg he, if_neg he]
      rfl
  | cons e' rest' ih =>
    intro e start hse hen hpw hb
    have hee' : e < e' := (List.pairwise_cons.mp hpw).1 e' (by simp)
    have he'n : e' ≤ t.length := hb e' (by simp)
    have hen' : e < t.length := by omega
    show specMoveWsGo (pySlice t start e) (pySlice t e e' :: rawFragsGo t e' rest')
      = assembleFrags t start (e :: e' :: rest')
    rw [assembleFrags_cons_cons_eq]
    rw [pySlice_cons t hen' hee']
    by_cases hsp : pyIsSpace (charAt t e) = true
    · have hms : moveShift t e e' = 1 := by
        unfold moveShift
        rw [if_pos (by simp [hee', hsp])]
      simp only [specMoveWsGo, if_pos hsp, hms]
      rw [← pySlice_snoc t hse hen']
      rw [ih e' (e + 1) (by omega) he'n (List.pairwise_cons.mp hpw).2
        (fun x hx => hb x (by simp [hx]))]
    · have hms : moveShift t e e' = 0 := by
        unfold moveShift
        rw [if_neg (by simp [hsp])]
      simp only [specMoveWsGo, if_neg hsp, hms]
      rw [← pySlice_cons t hen' hee']
      rw [ih e' e (by omega) he'n (List.pairwise_cons.mp hpw).2
        (fun x hx => hb x (by simp [hx]))]
      simp

/-- C5: `split_sentences` reconstructs its input exactly, and it equals the
spec-worded transformation: take the raw fragments delimited by the accepted
boundaries, then move exactly one leading whitespace character of every
fragment except the first onto the end of the previous fragment. -/
theorem claim_C5_split_sentences_whitespace (t : Text) :
    (split_sentences t).flatten = t ∧
    split_sentences t = specMoveWs (rawFrags t) := by
  by_cases ht : t = []
  · subst ht
    exact ⟨rfl, rfl⟩
  · have hb := acceptedEnds_bounds t
    constructor
    · unfold split_sentences
      rw [if_neg ht]
      rw [assembleFrags_flatten t (acceptedEnds t) 0 hb.1
        (fun e he => ⟨Nat.zero_le e, (hb.2 e he).2⟩)]
      exact pySlice_zero_length t
    · unfold split_sentences rawFrags
      rw [if_neg ht, if_neg ht]
      have h0 : 0 < t.length := List.length_pos.mpr ht
      cases hE : acceptedEnds t with
      | nil =>
        show assembleFrags t 0 []
          = specMoveWs (if 0 < t.length then [pySlice t 0 t.length] else [])
        rw [if_pos h0, assembleFrags_nil_eq, if_pos h0]
        rfl
      | cons e rest =>
        rw [hE] at hb
        show assembleFrags t 0 (e :: rest)
          = specMoveWs (pySlice t 0 e :: rawFragsGo t e rest)
        show assembleFrags t 0 (e :: rest)
          = specMoveWsGo (pySlice t 0 e) (rawFragsGo t e rest)
        exact (rawFrags_spec t rest e 0 (Nat.zero_le e) (hb.2 e (by simp)).2
          hb.1 (fun x hx => (hb.2 x (by simp [hx])).2)).symm

/-- C4: every boundary `split_sentences` accepts ends a run of `.!?`
immediately followed by whitespace, end of text, a closing bracket or `[[`
(the candidate property), and is not suppressed by the abbreviation table;
on `"Dr. Smith went home. He left."` the only accepted boundary is position
20 (right after `"home."`; the candidates after `"Dr."` and after `"left."`
are suppressed by the `"Dr"` and `"ft"` table entries), so the call yields
exactly two fragments, splitting after `"home."` and at `"left."` at the end
of the text. -/
theorem claim_C4_split_sentences_boundaries :
    (∀ (t : Text) (e : Nat), e ∈ acceptedEnds t →
      candidateEnd t e ∧ abbrevAt t e = false) ∧
    acceptedEnds "Dr. Smith went home. He left.".data = [20] ∧
    split_sentences "Dr. Smith went home. He left.".data =
      ["Dr. Smith went home. ".data, "He left.".data] := by
  refine ⟨fun t e he => acceptedEnds_sound t e he, by decide, by decide⟩

/-- Witness for C4: position 20 (the boundary after `"home."`) is an accepted
end of the example text and satisfies the candidate property, unsuppressed. -/
theorem claim_C4_split_sentences_boundaries_witness :
    candidateEnd "Dr. Smith went home. He left.".data 20 ∧
    abbrevAt "Dr. Smith went home. He left.".data 20 = false :=
  claim_C4_split_sentences_boundaries.1 "Dr. Smith went home. He left.".data 20 (by decide)

theorem textF_snocF : ∀ (cs : DocForest) (x : DocNode),
    textF (snocF cs x) = textF cs ++ textOf x
  | .nil, x => by simp [snocF, textF]
  | .cons h t, x => by simp [snocF, textF, textF_snocF t x]

theorem leavesF_snocF : ∀ (cs : DocForest) (x : DocNode),
    leavesF (snocF cs x) = leavesF cs ++ leavesOf x
  | .nil, x => by simp [snocF, leavesF]
  | .cons h t, x => by simp [snocF, leavesF, leavesF_snocF t x]

theorem lenF_snocF : ∀ (cs : DocForest) (x : DocNode),
    lenF (snocF cs x) = lenF cs + 1
  | .nil, _ => rfl
  | .cons h t, x => by simp [snocF, lenF, lenF_snocF t x]

theorem getF_snocF_last : ∀ (cs : DocForest) (x : DocNode),
    getF (snocF cs x) (lenF cs) = x
  | .nil, _ => rfl
  | .cons h t, x => by simpa [snocF, lenF, getF] using getF_snocF_last t x

theorem lenF_setF : ∀ (cs : DocForest) (i : Nat) (x : DocNode),
    lenF (setF cs i x) = lenF cs
  | .nil, _, _ => rfl
  | .cons h t, 0, x => rfl
  | .cons h t, i + 1, x => by simp [setF, lenF, lenF_setF t i x]

theorem getF_setF : ∀ (cs : DocForest) (i : Nat) (x : DocNode), i < lenF cs →
    getF (setF cs i x) i = x
  | .nil, i, x => by intro h; simp [lenF] at h
  | .cons hd t, 0, x => by intro _; rfl
  | .cons hd t, i + 1, x => by
    intro h
    simp only [lenF] at h
    exact getF_setF t i x (by omega)

/-- Replacing the last child: the preceding children contribute a common
text block before it. -/
theorem textF_setF_last : ∀ (cs : DocForest) (i : Nat), i + 1 = lenF cs →
    ∃ pre, textF cs = pre ++ textOf (getF cs i) ∧
      ∀ y, textF (setF cs i y) = pre ++ textOf y
  | .nil, i => by intro h; simp [lenF] at h
  | .cons hd t, 0 => by
    intro h
    simp only [lenF] at h
    have ht : t = .nil := by
      cases t with
      | nil => rfl
      | cons a b => simp [lenF] at h
    subst ht
    exact ⟨[], by simp [textF, getF], fun y => by simp [setF, textF]⟩
  | .cons hd t, j + 1 => by
    intro h
    simp only [lenF] at h
    obtain ⟨pre, hpre, hset⟩ := textF_setF_last t j (by omega)
    refine ⟨textOf hd ++ pre, ?_, ?_⟩
    · simp [textF, getF, hpre]
    · intro y
      simp [setF, textF, hset y]

theorem leavesF_setF_last : ∀ (cs : DocForest) (i : Nat), i + 1 = lenF cs →
    ∃ pre, leavesF cs = pre ++ leavesOf (getF cs i) ∧
      ∀ y, leavesF (setF cs i y) = pre ++ leavesOf y
  | .nil, i => by intro h; simp [lenF] at h
  | .cons hd t, 0 => by
    intro h
    simp only [lenF] at h
    have ht : t = .nil := by
      cases t with
      | nil => rfl
      | cons a b => simp [lenF] at h
    subst ht
    exact ⟨[], by simp [leavesF, getF], fun y => by simp [setF, leavesF]⟩
  | .cons hd t, j + 1 => by
    intro h
    simp only [lenF] at h
    obtain ⟨pre, hpre, hset⟩ := leavesF_setF_last t j (by omega)
    refine ⟨leavesOf hd ++ pre, ?_, ?_⟩
    · simp [leavesF, getF, hpre]
    · intro y
      simp [setF, leavesF, hset y]

/-- Appending a child at a rightmost inner node appends its text at the very
end of the reconstructed text. -/
theorem textOf_addChildAt : ∀ (p : List Nat) (root x : DocNode), rvInner root p →
    textOf (addChildAt root p x) = textOf root ++ textOf x := by
  intro p
  induction p with
  | nil =>
    intro root x hrv
    cases root with
    | leaf d => exact absurd hrv (by simp [rvInner])
    | inner n cs => simp [addChildAt, textOf, textF_snocF]
  | cons i p ih =>
    intro root x hrv
    cases root with
    | leaf d => exact absurd hrv (by simp [rvInner])
    | inner n cs =>
      obtain ⟨hi, hrv'⟩ := hrv
      obtain ⟨pre, hpre, hset⟩ := textF_setF_last cs i hi
      show textF (setF cs i (addChildAt (getF cs i) p x)) = textF cs ++ textOf x
      rw [hset, ih (getF cs i) x hrv', hpre]
      simp

theorem leavesOf_addChildAt : ∀ (p : List Nat) (root x : DocNode), rvInner root p →
    leavesOf (addChildAt root p x) = leavesOf root ++ leavesOf x := by
  intro p
  induction p with
  | nil =>
    intro root x hrv
    cases root with
    | leaf d => exact absurd hrv (by simp [rvInner])
    | inner n cs => simp [addChildAt, leavesOf, leavesF_snocF]
  | cons i p ih =>
    intro root x hrv
    cases root with
    | leaf d => exact absurd hrv (by simp [rvInner])
    | inner n cs =>
      obtain ⟨hi, hrv'⟩ := hrv
      obtain ⟨pre, hpre, hset⟩ := leavesF_setF_last cs i hi
      show leavesF (setF cs i (addChildAt (getF cs i) p x)) = leavesF cs ++ leavesOf x
      rw [hset, ih (getF cs i) x hrv', hpre]
      simp

/-- Adding a child below a rightmost inner node keeps that node rightmost. -/
theorem rvInner_addChildAt_self : ∀ (p : List Nat) (root x : DocNode),
    rvInner root p → rvInner (addChildAt root p x) p := by
  intro p
  induction p with
  | nil =>
    intro root x hrv
    cases root with
    | leaf d => exact absurd hrv (by simp [rvInner])
    | inner n cs => simp [addChildAt, rvInner]
  | cons i p ih =>
    intro root x hrv
    cases root with
    | leaf d => exact absurd hrv (by simp [rvInner])
    | inner n cs =>
      obtain ⟨hi, hrv'⟩ := hrv
      refine ⟨by rw [lenF_setF]; exact hi, ?_⟩
      rw [getF_setF cs i _ (by omega)]
      exact ih (getF cs i) x hrv'

/-- The freshly appended empty section node is itself rightmost (its path is
the parent's path extended by the parent's previous child count). -/
theorem rvInner_addChildAt_new : ∀ (p : List Nat) (root : DocNode) (nm : Text),
    rvInner root p →
    rvInner (addChildAt root p (.inner nm .nil)) (p ++ [childCountAt root p]) := by
  intro p
  induction p with
  | nil =>
    intro root nm hrv
    cases root with
    | leaf d => exact absurd hrv (by simp [rvInner])
    | inner n cs =>
      show rvInner (.inner n (snocF cs (.inner nm .nil))) [lenF cs]
      refine ⟨by rw [lenF_snocF], ?_⟩
      rw [getF_snocF_last]
      exact trivial
  | cons i p ih =>
    intro root nm hrv
    cases root with
    | leaf d => exact absurd hrv (by simp [rvInner])
    | inner n cs =>
      obtain ⟨hi, hrv'⟩ := hrv
      show rvInner (.inner n (setF cs i (addChildAt (getF cs i) p (.inner nm .nil))))
        (i :: (p ++ [childCountAt (getF cs i) p]))
      refine ⟨by rw [lenF_setF]; exact hi, ?_⟩
      rw [getF_setF cs i _ (by omega)]
      exact ih (getF cs i) nm hrv'

/-- A rightmost path remains one after cutting off a suffix. -/
theorem rvInner_append_left : ∀ (p q : List Nat) (root : DocNode),
    rvInner root (p ++ q) → rvInner root p := by
  intro p
  induction p with
  | nil =>
    intro q root hrv
    cases root with
    | leaf d =>
      exact absurd hrv (by cases q <;> simp [rvInner])
    | inner n cs => exact trivial
  | cons i p ih =>
    intro q root hrv
    cases root with
    | leaf d => exact absurd hrv (by simp [rvInner])
    | inner n cs =>
      obtain ⟨hi, hrv'⟩ := hrv
      exact ⟨hi, ih q (getF cs i) hrv'⟩

/-!
## The sectioning stack invariant (C10) and text preservation (C8)

Stored top-first, the stack always carries levels `[k, k-1, …, 0]`: the frame
at bottom index `i` has level `i`.  Consequently the reuse test
`len(stack) > level` is evaluated only at points where `level` equals the
stack length, so it never succeeds (`reuse` stays `0`).
-/
theorem reverse_range_succ (n : Nat) :
    (List.range (n + 1)).reverse = n :: (List.range n).reverse := by
  rw [List.range_succ]
  simp

theorem getD_map_level (l : List Frame) (i : Nat) :
    (l.map Frame.level).getD i 0 = Frame.level (l.getD i defaultFrame) := by
  have h : Frame.level defaultFrame = 0 := rfl
  rw [List.getD_eq_getElem?_getD, List.getD_eq_getElem?_getD, List.getElem?_map]
  cases l[i]? <;> simp [h]

theorem reverse_range_getD : ∀ (n j : Nat), j < n →
    ((List.range n).reverse).getD j 0 = n - 1 - j := by
  intro n
  induction n with
  | zero => intro j h; omega
  | succ m ih =>
    intro j h
    rw [reverse_range_succ]
    cases j with
    | zero => simp
    | succ i =>
      simp only [List.getD_cons_succ]
      rw [ih i (by omega)]
      omega

theorem stackLevelsOK_nth (rstack : List Frame) (h : stackLevelsOK rstack) :
    ∀ i, i < rstack.length → (stackNth rstack i).level = i := by
  intro i hi
  unfold stackNth
  have h1 := getD_map_level rstack (rstack.length - 1 - i)
  rw [h] at h1
  rw [reverse_range_getD rstack.length (rstack.length - 1 - i) (by omega)] at h1
  have : rstack.length - 1 - (rstack.length - 1 - i) = i := by omega
  rw [this] at h1
  exact h1.symm

theorem stackLevelsOK_head (f : Frame) (rest : List Frame)
    (h : stackLevelsOK (f :: rest)) : f.level = rest.length := by
  unfold stackLevelsOK at h
  simp only [List.length_cons] at h
  rw [reverse_range_succ] at h
  simpa using congrArg (fun l => l.headD 0) h

theorem stackLevelsOK_tail (f : Frame) (rest : List Frame)
    (h : stackLevelsOK (f :: rest)) : stackLevelsOK rest := by
  unfold stackLevelsOK at h ⊢
  simp only [List.length_cons] at h
  rw [reverse_range_succ] at h
  simpa using congrArg List.tail h

theorem popLoop_ne_nil (m : Nat) : ∀ (rstack : List Frame), rstack ≠ [] →
    popLoop m rstack ≠ []
  | [], h => absurd rfl h
  | [f], _ => by simp [popLoop]
  | f :: g :: rest, _ => by
    unfold popLoop
    by_cases hc : m ≤ f.level
    · rw [if_pos hc]
      exact popLoop_ne_nil m (g :: rest) (by simp)
    · rw [if_neg hc]
      simp

theorem popLoop_levelsOK (m : Nat) : ∀ (rstack : List Frame),
    stackLevelsOK rstack → stackLevelsOK (popLoop m rstack)
  | [], h => h
  | [f], h => by simpa [popLoop] using h
  | f :: g :: rest, h => by
    unfold popLoop
    by_cases hc : m ≤ f.level
    · rw [if_pos hc]
      exact popLoop_levelsOK m (g :: rest) (stackLevelsOK_tail f (g :: rest) h)
    · rw [if_neg hc]
      exact h

/-- With the stack length equal to `level`, the reuse test cannot fire and
`levelStep` pushes one fresh section frame (named as the metadata says, or
`"DUMMY"`). -/
theorem levelStep_push (ch : MdChunk) (st : MdState) (level : Nat)
    (hlen : st.rstack.length = level) :
    ∃ nm : Text,
      (levelStep ch st level).root =
        addChildAt st.root (st.rstack.headD defaultFrame).path (.inner nm .nil) ∧
      (levelStep ch st level).rstack =
        (⟨level, nm, (st.rstack.headD defaultFrame).path ++
          [childCountAt st.root (st.rstack.headD defaultFrame).path]⟩ : Frame) :: st.rstack ∧
      (levelStep ch st level).reuse = st.reuse := by
  unfold levelStep
  have hdrop : st.rstack.drop (st.rstack.length - level) = st.rstack := by
    rw [hlen]
    simp
  cases hl : ch.headers.lookup level with
  | none =>
    exact ⟨"DUMMY".data, rfl, by rw [hdrop], rfl⟩
  | some name =>
    have hcond : ¬(st.rstack.length > level ∧ (stackNth st.rstack level).level = level ∧
        (stackNth st.rstack level).name = name) := by
      intro hc
      omega
    dsimp only
    rw [if_neg hcond]
    exact ⟨name, rfl, by rw [hdrop], rfl⟩

/-- Unfolded form of `processChunk` for a chunk that carries headers. -/
theorem processChunk_headered_eq (st : MdState) (ch : MdChunk)
    (hh : headerLevels ch ≠ []) :
    processChunk st ch =
      { (List.range' (((popLoop (maxLevel ch) st.rstack).headD defaultFrame).level + 1)
          (maxLevel ch + 1 -
            (((popLoop (maxLevel ch) st.rstack).headD defaultFrame).level + 1))).foldl
          (levelStep ch) ⟨st.root, popLoop (maxLevel ch) st.rstack, st.reuse⟩ with
        root := addChildAt
          ((List.range' (((popLoop (maxLevel ch) st.rstack).headD defaultFrame).level + 1)
            (maxLevel ch + 1 -
              (((popLoop (maxLevel ch) st.rstack).headD defaultFrame).level + 1))).foldl
            (levelStep ch) ⟨st.root, popLoop (maxLevel ch) st.rstack, st.reuse⟩).root
          (((List.range' (((popLoop (maxLevel ch) st.rstack).headD defaultFrame).level + 1)
            (maxLevel ch + 1 -
              (((popLoop (maxLevel ch) st.rstack).headD defaultFrame).level + 1))).foldl
            (levelStep ch) ⟨st.root, popLoop (maxLevel ch) st.rstack, st.reuse⟩).rstack.headD
              defaultFrame).path
          (.leaf ch.content) } := by
  unfold processChunk
  rw [if_neg hh]

/-- Unfolded form of `processChunk` for a headerless chunk. -/
theorem processChunk_headerless_eq (st : MdState) (ch : MdChunk)
    (hh : headerLevels ch = []) :
    processChunk st ch = { st with root := addChildAt st.root [] (.leaf ch.content) } := by
  unfold processChunk
  rw [if_pos hh]

/-- Folding `levelStep` over `range' lo cnt` starting from a stack of length
`lo` with well-formed levels grows it to length `lo + cnt`, keeps the levels
well formed, and never takes the reuse branch. -/
theorem levelFold_invA (ch : MdChunk) : ∀ (cnt lo : Nat) (st : MdState),
    stackLevelsOK st.rstack → st.rstack.length = lo →
    stackLevelsOK ((List.range' lo cnt).foldl (levelStep ch) st).rstack ∧
    ((List.range' lo cnt).foldl (levelStep ch) st).rstack.length = lo + cnt ∧
    ((List.range' lo cnt).foldl (levelStep ch) st).reuse = st.reuse := by
  intro cnt
  induction cnt with
  | zero =>
    intro lo st hA hlen
    exact ⟨hA, by simpa using hlen, rfl⟩
  | succ c ih =>
    intro lo st hA hlen
    have hrange : List.range' lo (c + 1) = lo :: List.range' (lo + 1) c := rfl
    rw [hrange]
    simp only [List.foldl_cons]
    obtain ⟨nm, hroot, hstack, hreuse⟩ := levelStep_push ch st lo hlen
    have hA' : stackLevelsOK (levelStep ch st lo).rstack := by
      unfold stackLevelsOK at hA ⊢
      rw [hstack]
      simp only [List.map_cons, List.length_cons]
      rw [hlen] at hA
      rw [hlen, reverse_range_succ, hA]
    have hlen' : (levelStep ch st lo).rstack.length = lo + 1 := by
      rw [hstack]
      simp [hlen]
    obtain ⟨h1, h2, h3⟩ := ih (lo + 1) (levelStep ch st lo) hA' hlen'
    refine ⟨h1, by omega, by rw [h3, hreuse]⟩

/-- Per-chunk preservation of the level invariant; the reuse counter never
moves. -/
theorem processChunk_invA (st : MdState) (ch : MdChunk)
    (hne : st.rstack ≠ []) (hA : stackLevelsOK st.rstack) :
    (processChunk st ch).rstack ≠ [] ∧ stackLevelsOK (processChunk st ch).rstack ∧
    (processChunk st ch).reuse = st.reuse := by
  by_cases hh : headerLevels ch = []
  · rw [processChunk_headerless_eq st ch hh]
    exact ⟨hne, hA, rfl⟩
  · rw [processChunk_headered_eq st ch hh]
    have hne1 := popLoop_ne_nil (maxLevel ch) st.rstack hne
    have hA1 := popLoop_levelsOK (maxLevel ch) st.rstack hA
    have hhead : ((popLoop (maxLevel ch) st.rstack).headD defaultFrame).level + 1
        = (popLoop (maxLevel ch) st.rstack).length := by
      cases hP : popLoop (maxLevel ch) st.rstack with
      | nil => exact absurd hP hne1
      | cons f rest =>
        rw [hP] at hA1
        have := stackLevelsOK_head f rest hA1
        simp [this]
    obtain ⟨h1, h2, h3⟩ := levelFold_invA ch
      (maxLevel ch + 1 - (((popLoop (maxLevel ch) st.rstack).headD defaultFrame).level + 1))
      (((popLoop (maxLevel ch) st.rstack).headD defaultFrame).level + 1)
      ⟨st.root, popLoop (maxLevel ch) st.rstack, st.reuse⟩ hA1 hhead.symm
    refine ⟨?_, h1, h3⟩
    intro hcontra
    have := congrArg List.length hcontra
    simp only [List.length_nil] at this
    omega

theorem foldChunks_invA : ∀ (chunks : List MdChunk) (st : MdState),
    st.rstack ≠ [] → stackLevelsOK st.rstack →
    (chunks.foldl processChunk st).rstack ≠ [] ∧
    stackLevelsOK (chunks.foldl processChunk st).rstack ∧
    (chunks.foldl processChunk st).reuse = st.reuse := by
  intro chunks
  induction chunks with
  | nil => intro st hne hA; exact ⟨hne, hA, rfl⟩
  | cons ch chunks ih =>
    intro st hne hA
    simp only [List.foldl_cons]
    obtain ⟨h1, h2, h3⟩ := processChunk_invA st ch hne hA
    obtain ⟨g1, g2, g3⟩ := ih (processChunk st ch) h1 h2
    exact ⟨g1, g2, by rw [g3, h3]⟩

/-- C10: after any chunk sequence the sectioning stack has contiguous levels
(the frame at bottom index `i` — Python `stack[i]` — holds level `i`), and
the "section already exists" reuse branch is never taken (`reuse = 0`):
since its guard needs `len(stack) > level` at points where `level` equals
the stack length, a repeated header is never reused and every header-bearing
chunk creates fresh `Inner` section nodes for each level it opens. -/
theorem claim_C10_split_md_stack_invariant (chunks : List MdChunk) :
    (∀ i, i < (split_mdState chunks).rstack.length →
      (stackNth (split_mdState chunks).rstack i).level = i) ∧
    (split_mdState chunks).reuse = 0 := by
  have h := foldChunks_invA chunks initState (by simp [initState]) (by
    unfold stackLevelsOK initState
    rfl)
  refine ⟨?_, ?_⟩
  · exact stackLevelsOK_nth _ h.2.1
  · show (chunks.foldl processChunk initState).reuse = 0
    rw [h.2.2]
    rfl

theorem popLoop_invB (root : DocNode) (m : Nat) : ∀ (rstack : List Frame),
    InvB root rstack → InvB root (popLoop m rstack)
  | [], h => absurd rfl h.1
  | [f], h => by simpa [popLoop] using h
  | f :: g :: rest, h => by
    unfold popLoop
    by_cases hc : m ≤ f.level
    · rw [if_pos hc]
      apply popLoop_invB root m (g :: rest)
      obtain ⟨ii, hfp⟩ := h.2.1.1
      refine ⟨by simp, h.2.1.2, ?_⟩
      have hrv : rvInner root f.path := h.2.2
      rw [hfp] at hrv
      exact rvInner_append_left g.path [ii] root hrv
    · rw [if_neg hc]
      exact h

/-- Pushing the frame of a freshly appended (empty) section preserves the
invariant. -/
theorem push_invB (root : DocNode) (rstack : List Frame) (lvl : Nat) (nm : Text)
    (h : InvB root rstack) :
    InvB (addChildAt root (rstack.headD defaultFrame).path (.inner nm .nil))
      ((⟨lvl, nm, (rstack.headD defaultFrame).path ++
        [childCountAt root (rstack.headD defaultFrame).path]⟩ : Frame) :: rstack) := by
  obtain ⟨hne, hchain, hrv⟩ := h
  cases rstack with
  | nil => exact absurd rfl hne
  | cons f rest =>
    refine ⟨by simp, ?_, ?_⟩
    · exact ⟨⟨childCountAt root f.path, by simp⟩, hchain⟩
    · simpa using rvInner_addChildAt_new f.path root nm hrv

/-- The level loop preserves `InvB` and touches neither the text nor the
leaves of the tree (it only appends empty inner nodes). -/
theorem levelFold_invB (ch : MdChunk) : ∀ (cnt lo : Nat) (st : MdState),
    stackLevelsOK st.rstack → st.rstack.length = lo → InvB st.root st.rstack →
    InvB ((List.range' lo cnt).foldl (levelStep ch) st).root
      ((List.range' lo cnt).foldl (levelStep ch) st).rstack ∧
    textOf ((List.range' lo cnt).foldl (levelStep ch) st).root = textOf st.root ∧
    leavesOf ((List.range' lo cnt).foldl (levelStep ch) st).root = leavesOf st.root := by
  intro cnt
  induction cnt with
  | zero =>
    intro lo st _ _ hB
    exact ⟨hB, rfl, rfl⟩
  | succ c ih =>
    intro lo st hA hlen hB
    have hrange : List.range' lo (c + 1) = lo :: List.range' (lo + 1) c := rfl
    rw [hrange]
    simp only [List.foldl_cons]
    obtain ⟨nm, hroot, hstack, hreuse⟩ := levelStep_push ch st lo hlen
    have hA' : stackLevelsOK (levelStep ch st lo).rstack := by
      unfold stackLevelsOK at hA ⊢
      rw [hstack]
      simp only [List.map_cons, List.length_cons]
      rw [hlen] at hA
      rw [hlen, reverse_range_succ, hA]
    have hlen' : (levelStep ch st lo).rstack.length = lo + 1 := by
      rw [hstack]
      simp [hlen]
    have hB' : InvB (levelStep ch st lo).root (levelStep ch st lo).rstack := by
      rw [hroot, hstack]
      exact push_invB st.root st.rstack lo nm hB
    obtain ⟨g1, g2, g3⟩ := ih (lo + 1) (levelStep ch st lo) hA' hlen' hB'
    refine ⟨g1, ?_, ?_⟩
    · rw [g2, hroot, textOf_addChildAt _ st.root _ hB.2.2]
      show textOf st.root ++ textF .nil = textOf st.root
      simp [textF]
    · rw [g3, hroot, leavesOf_addChildAt _ st.root _ hB.2.2]
      show leavesOf st.root ++ leavesF .nil = leavesOf st.root
      simp [leavesF]

/-- Per-chunk preservation for a headered chunk: the invariants survive and
the chunk's content lands at the very end of the reconstruction. -/
theorem processChunk_invB (st : MdState) (ch : MdChunk)
    (hh : headerLevels ch ≠ []) (hne : st.rstack ≠ [])
    (hA : stackLevelsOK st.rstack) (hB : InvB st.root st.rstack) :
    InvB (processChunk st ch).root (processChunk st ch).rstack ∧
    textOf (processChunk st ch).root = textOf st.root ++ ch.content ∧
    leavesOf (processChunk st ch).root = leavesOf st.root ++ [ch.content] := by
  rw [processChunk_headered_eq st ch hh]
  have hne1 := popLoop_ne_nil (maxLevel ch) st.rstack hne
  have hA1 := popLoop_levelsOK (maxLevel ch) st.rstack hA
  have hB1 : InvB st.root (popLoop (maxLevel ch) st.rstack) :=
    popLoop_invB st.root (maxLevel ch) st.rstack hB
  have hhead : ((popLoop (maxLevel ch) st.rstack).headD defaultFrame).level + 1
      = (popLoop (maxLevel ch) st.rstack).length := by
    cases hP : popLoop (maxLevel ch) st.rstack with
    | nil => exact absurd hP hne1
    | cons f rest =>
      rw [hP] at hA1
      have := stackLevelsOK_head f rest hA1
      simp [this]
  obtain ⟨g1, g2, g3⟩ := levelFold_invB ch
    (maxLevel ch + 1 - (((popLoop (maxLevel ch) st.rstack).headD defaultFrame).level + 1))
    (((popLoop (maxLevel ch) st.rstack).headD defaultFrame).level + 1)
    ⟨st.root, popLoop (maxLevel ch) st.rstack, st.reuse⟩ hA1 hhead.symm hB1
  constructor
  · refine ⟨g1.1, g1.2.1, ?_⟩
    exact rvInner_addChildAt_self _ _ _ g1.2.2
  constructor
  · rw [textOf_addChildAt _ _ _ g1.2.2, g2]
    rfl
  · rw [leavesOf_addChildAt _ _ _ g1.2.2, g3]
    rfl

/-- Headerless chunks (processed while the stack is just the root frame)
append their content directly under the root, at the end of the text. -/
theorem processChunk_headerless_inv (st : MdState) (ch : MdChunk) (f : Frame)
    (hh : headerLevels ch = []) (hst : st.rstack = [f]) (hf : f.path = [])
    (hrv : rvInner st.root []) :
    (processChunk st ch).rstack = [f] ∧ rvInner (processChunk st ch).root [] ∧
    textOf (processChunk st ch).root = textOf st.root ++ ch.content ∧
    leavesOf (processChunk st ch).root = leavesOf st.root ++ [ch.content] := by
  rw [processChunk_headerless_eq st ch hh]
  refine ⟨hst, ?_, ?_, ?_⟩
  · exact rvInner_addChildAt_self [] st.root _ hrv
  · rw [textOf_addChildAt [] st.root _ hrv]
    rfl
  · rw [leavesOf_addChildAt [] st.root _ hrv]
    rfl

/-- Phase 1: a block of headerless chunks keeps the stack at the lone root
frame and appends the contents in order. -/
theorem foldPre_inv : ∀ (pre : List MdChunk) (st : MdState) (f : Frame),
    (∀ c ∈ pre, headerLevels c = []) → st.rstack = [f] → f.path = [] →
    rvInner st.root [] →
    (pre.foldl processChunk st).rstack = [f] ∧
    rvInner (pre.foldl processChunk st).root [] ∧
    textOf (pre.foldl processChunk st).root = textOf st.root ++ chunksText pre ∧
    leavesOf (pre.foldl processChunk st).root
      = leavesOf st.root ++ pre.map MdChunk.content := by
  intro pre
  induction pre with
  | nil =>
    intro st f _ hst _ hrv
    refine ⟨hst, hrv, by simp [chunksText], by simp⟩
  | cons ch pre ih =>
    intro st f hpre hst hf hrv
    simp only [List.foldl_cons]
    obtain ⟨h1, h2, h3, h4⟩ := processChunk_headerless_inv st ch f
      (hpre ch (by simp)) hst hf hrv
    obtain ⟨g1, g2, g3, g4⟩ := ih (processChunk st ch) f
      (fun c hc => hpre c (by simp [hc])) h1 hf h2
    refine ⟨g1, g2, ?_, ?_⟩
    · rw [g3, h3]
      unfold chunksText
      simp
    · rw [g4, h4]
      simp

/-- Phase 2: a block of headered chunks preserves the invariants and appends
the contents in order. -/
theorem foldPost_inv : ∀ (post : List MdChunk) (st : MdState),
    (∀ c ∈ post, headerLevels c ≠ []) → st.rstack ≠ [] →
    stackLevelsOK st.rstack → InvB st.root st.rstack →
    textOf (post.foldl processChunk st).root = textOf st.root ++ chunksText post ∧
    leavesOf (post.foldl processChunk st).root
      = leavesOf st.root ++ post.map MdChunk.content := by
  intro post
  induction post with
  | nil =>
    intro st _ _ _ _
    exact ⟨by simp [chunksText], by simp⟩
  | cons ch post ih =>
    intro st hpost hne hA hB
    simp only [List.foldl_cons]
    obtain ⟨h1, h2, h3⟩ := processChunk_invB st ch (hpost ch (by simp)) hne hA hB
    obtain ⟨a1, a2, a3⟩ := processChunk_invA st ch hne hA
    obtain ⟨g1, g2⟩ := ih (processChunk st ch)
      (fun c hc => hpost c (by simp [hc])) a1 a2 h1
    refine ⟨?_, ?_⟩
    · rw [g1, h2]
      unfold chunksText
      simp
    · rw [g2, h3]
      simp

/-- For phased chunk sequences, `split_md` reconstructs the text exactly and
its leaves are exactly the chunk contents in order. -/
theorem split_md_text_leaves (chunks : List MdChunk) (h : PhasedChunks chunks) :
    textOf (split_md chunks) = chunksText chunks ∧
    leavesOf (split_md chunks) = chunks.map MdChunk.content := by
  obtain ⟨pre, post, rfl, hpre, hpost⟩ := h
  unfold split_md split_mdState
  rw [List.foldl_append]
  have hinit : initState.rstack = [⟨0, "ROOT".data, []⟩] := rfl
  obtain ⟨p1, p2, p3, p4⟩ := foldPre_inv pre initState ⟨0, "ROOT".data, []⟩
    hpre hinit rfl trivial
  have hA1 : stackLevelsOK (pre.foldl processChunk initState).rstack := by
    unfold stackLevelsOK
    rw [p1]
    rfl
  have hB1 : InvB (pre.foldl processChunk initState).root
      (pre.foldl processChunk initState).rstack := by
    rw [p1]
    exact ⟨by simp, rfl, by simpa using p2⟩
  obtain ⟨g1, g2⟩ := foldPost_inv post (pre.foldl processChunk initState)
    hpost (by rw [p1]; simp) hA1 hB1
  have htext0 : textOf initState.root = [] := rfl
  have hleaves0 : leavesOf initState.root = [] := rfl
  constructor
  · rw [g1, p3, htext0]
    unfold chunksText
    simp
  · rw [g2, p4, hleaves0]
    simp

/-- C8 counterexample: on `cexChunks` — whose chunk with deepest level 3
skips level 2, so the claim's hypothesis holds — a `DUMMY` placeholder is
created, but the reconstructed text is `"acb"` while the contents concatenate
to `"abc"`: the claim's reconstruction part fails as stated. -/
theorem claim_C8_cex_headerless_between :
    textOf (split_md cexChunks) = "acb".data ∧
    chunksText cexChunks = "abc".data ∧
    textOf (split_md cexChunks) ≠ chunksText cexChunks ∧
    "DUMMY".data ∈ namesOf (split_md cexChunks) := by
  refine ⟨by decide, by decide, by decide, by decide⟩

/-- C8 (amended): for chunk sequences where headerless chunks all come
before the headered ones (the parser emits headerless content only at the
start), `split_md` keeps level alignment by inserting `DUMMY` placeholder
sections at missing levels and reconstructs the text exactly.  On the
levels-1-then-3 example the tree is `ROOT → A → DUMMY → C` and the text is
preserved. -/
theorem claim_C8_split_md_dummy_and_text :
    (∀ chunks : List MdChunk, PhasedChunks chunks →
      textOf (split_md chunks) = chunksText chunks) ∧
    namesOf (split_md gapChunks)
      = ["ROOT".data, "A".data, "DUMMY".data, "C".data] ∧
    textOf (split_md gapChunks) = chunksText gapChunks := by
  refine ⟨fun chunks h => (split_md_text_leaves chunks h).1, by decide, by decide⟩

/-- Witness for C8: the amended theorem applied to the concrete gap example
(whose chunks are all headered, hence phased). -/
theorem claim_C8_split_md_dummy_and_text_witness :
    textOf (split_md gapChunks) = chunksText gapChunks :=
  claim_C8_split_md_dummy_and_text.1 gapChunks
    ⟨[], gapChunks, rfl, by simp, by decide⟩

theorem except_bind_ok {α β ε : Type} (a : α) (f : α → Except ε β) :
    (Except.ok a >>= f : Except ε β) = f a := rfl

mutual
/-- A tree whose leaves are all within the bound passes a cascade stage
unchanged: the stage splitter is never invoked. -/
theorem boundLeaves_id (stage : Text) (fn : Text → Except PyErr (List Text))
    (m : Int) : ∀ (node : DocNode),
    (∀ d ∈ leavesOf node, (d.length : Int) ≤ m) →
    boundLeaves stage fn m node = .ok node
  | .leaf d, h => by
    unfold boundLeaves
    rw [if_neg]
    push_neg
    exact h d (by simp [leavesOf])
  | .inner nm cs, h => by
    unfold boundLeaves
    rw [boundLeavesF_id stage fn m cs (fun d hd => h d (by simpa [leavesOf] using hd))]
    rfl
theorem boundLeavesF_id (stage : Text) (fn : Text → Except PyErr (List Text))
    (m : Int) : ∀ (cs : DocForest),
    (∀ d ∈ leavesF cs, (d.length : Int) ≤ m) →
    boundLeavesF stage fn m cs = .ok cs
  | .nil, _ => rfl
  | .cons c cs, h => by
    unfold boundLeavesF
    rw [boundLeaves_id stage fn m c (fun d hd => h d (by simp [leavesF, hd])),
      boundLeavesF_id stage fn m cs (fun d hd => h d (by simp [leavesF, hd]))]
    rfl
end

/-- C9 (amended): when the re-parse returns an already-bounded fragment as a
single chunk (no re-sectioning), the pipeline does not subdivide it:
`split_node_to_list` of a single chunk whose content fits the bound returns
exactly that content. -/
theorem claim_C9_single_chunk_stable (c : MdChunk) (b : Int)
    (hb : 0 < b) (hlen : (c.content.length : Int) ≤ b) :
    split_node_to_list [c] b = Except.ok [c.content] := by
  have hph : PhasedChunks [c] := by
    by_cases hh : headerLevels c = []
    · exact ⟨[c], [], by simp, by simpa using hh, by simp⟩
    · exact ⟨[], [c], by simp, by simp, by simpa using hh⟩
  obtain ⟨htext, hleaves⟩ := split_md_text_leaves [c] hph
  have hct : chunksText [c] = c.content := by simp [chunksText]
  have hall : ∀ d ∈ leavesOf (split_md [c]), (d.length : Int) ≤ b := by
    rw [hleaves]
    intro d hd
    simp only [List.map_cons, List.map_nil, List.mem_singleton] at hd
    subst hd
    exact hlen
  have hid := boundLeaves_id "PAR".data parSplit b _ hall
  have hid2 := boundLeaves_id "SNT".data sntSplit b _ hall
  have hid3 := boundLeaves_id "CHR".data chrSplit b _ hall
  unfold split_node_to_list split_node
  dsimp only
  rw [if_pos htext]
  simp only [hid, hid2, hid3, except_bind_ok]
  rw [if_pos (by
    rw [List.all_eq_true]
    intro d hd
    exact decide_eq_true (hall d hd))]
  rw [if_pos htext]
  show Except.ok (leavesOf (split_md [c])) = Except.ok [c.content]
  rw [hleaves]
  rfl

/-- Witness for C9: a concrete single chunk within the bound is returned
as-is. -/
theorem claim_C9_single_chunk_stable_witness :
    split_node_to_list [⟨"hi".data, []⟩] 5 = Except.ok ["hi".data] :=
  claim_C9_single_chunk_stable ⟨"hi".data, []⟩ 5 (by decide) (by decide)

/-- C9 counterexample: the fragment `"ab"` is produced (already bounded) by
a run of the pipeline, yet a re-parse of `"ab"` satisfying the parser's
stated contract (contents concatenate to the text) may return two chunks, and
then re-running the pipeline yields `["a", "b"] ≠ ["ab"]`: re-splitting an
already-small fragment can subdivide it. -/
theorem claim_C9_cex_reparse :
    split_node_to_list [⟨"ab".data, []⟩] 5 = Except.ok ["ab".data] ∧
    split_node_to_list [⟨"a".data, []⟩, ⟨"b".data, []⟩] 5
      = Except.ok ["a".data, "b".data] ∧
    (["a".data, "b".data] : List Text) ≠ ["ab".data] := by
  exact ⟨rfl, rfl, by decide⟩

/-- C1 (code bug evaluation): on the single headerless chunk `"aaaaaa"` with
bound 2 — the parser trivially satisfying its contract — the pipeline raises
`TypeError` at the character stage (the source passes two-argument
`split_chars` where a one-argument splitter is expected), so no fragment list
is produced at all and `join(split_node_to_list(t, b)) == t` fails. -/
theorem claim_C1_split_node_chr_typeerror :
    split_node_to_list [⟨"aaaaaa".data, []⟩] 2 = Except.error PyErr.typeError ∧
    chunksText [⟨"aaaaaa".data, []⟩] = "aaaaaa".data := by
  exact ⟨rfl, rfl⟩

/-- C2 (code bug evaluation): on the single chunk `"xxxxxxx"` with bound 3, a
leaf longer than the bound survives the paragraph and sentence stages, the
character stage is invoked and raises `TypeError`, so the guarantee that no
final fragment exceeds the bound is never established. -/
theorem claim_C2_split_node_oversize_leaf_typeerror :
    split_node_to_list [⟨"xxxxxxx".data, []⟩] 3 = Except.error PyErr.typeError ∧
    ("xxxxxxx".data : Text).length > 3 := by
  exact ⟨rfl, by decide⟩

/-- The windows of `split_chars` reassemble exactly (the source's final
`assert`, which therefore never fires and is not modelled as an error
path). -/
theorem chunksOfGo_flatten (k : Nat) (hk : 1 ≤ k) : ∀ (fuel : Nat) (l : Text),
    l.length ≤ fuel → (chunksOfGo k fuel l).flatten = l := by
  intro fuel
  induction fuel with
  | zero =>
    intro l h
    have : l = [] := List.length_eq_zero.mp (Nat.le_zero.mp h)
    subst this
    rfl
  | succ f ih =>
    intro l h
    cases l with
    | nil => rfl
    | cons c cs =>
      show ((c :: cs).take k :: chunksOfGo k f ((c :: cs).drop k)).flatten = c :: cs
      simp only [List.flatten_cons]
      have hlen2 : ((c :: cs).drop k).length ≤ f := by
        simp only [List.length_drop, List.length_cons]
        simp only [List.length_cons] at h
        omega
      rw [ih ((c :: cs).drop k) hlen2]
      exact List.take_append_drop k (c :: cs)
